import Mathlib

/-!
Verification of the conflict-detection and rescheduling engine of
`push_schedule.py` (google-calendar-automation).

Embedding conventions:
* Datetimes are integer minutes on an absolute timeline (the program works with
  timezone-aware datetimes in one configured timezone; all schedule data is
  minute-aligned).  `dateOf t = t / 1440` (floor) and `timeOf t = t % 1440`
  embed `dt.date()` and `dt.time()`.
* A Google calendar event dict is `GEvent`; the `"start"`/`"end"` values are
  `Option GTime` (a missing key is `none`), and an all-day event carries
  `dateTime := none` inside.  `stop` embeds the Python key `"end"` (a Lean
  keyword).
* Config strings such as `max_end_time = "23:59"` are embedded as minutes
  after midnight (`23*60+59`).
* Python exceptions are explicit: `PyErr.keyError` for a failed dict lookup,
  `PyErr.valueError` for `min()`/`max()` on an empty sequence, and the
  fuel-indexed loops return `fuelOut` when the supplied fuel is exhausted
  (fuel exhaustion is an artefact of the embedding, never a program outcome
  we assert).
-/

/-- The Python error kinds that the engine can actually raise. -/
inductive PyErr where
  | keyError
  | valueError
deriving DecidableEq, Repr

/-- The value of a `"start"`/`"end"` sub-dict of a calendar event: the
`"dateTime"` key is present (some absolute minute) or absent (all-day event,
which carries only a `"date"` key that the engine never reads). -/
structure GTime where
  dateTime : Option Int
deriving DecidableEq, Repr

/-- A Google calendar event dict, restricted to the keys the engine reads. -/
structure GEvent where
  id      : Option String
  summary : Option String
  start   : Option GTime
  stop    : Option GTime
deriving DecidableEq, Repr

/-- One 8-tuple of the schedule list:
`(title, year, month, day, start_hour, start_min, end_hour, end_min)`. -/
structure SchedTuple where
  title : String
  y     : Int
  m     : Int
  d     : Int
  sh    : Int
  sm    : Int
  eh    : Int
  em    : Int
deriving DecidableEq, Repr

/-- A scheduled block for one day, as built by `detect_conflicts` step 2
(title plus absolute start/end datetimes). -/
structure SchedBlock where
  title : String
  start : Int
  stop  : Int
deriving DecidableEq, Repr

/-- One conflict dict as produced by `detect_conflicts`:
`{"manual_event": cal, "scheduled_event": sched, "manual_start": …,
"manual_end": …}`. -/
structure Conflict where
  manual_event    : GEvent
  scheduled_event : SchedBlock
  manual_start    : Int
  manual_end      : Int
deriving DecidableEq, Repr

/-- The configuration keys read by the engine.  `gym_preferences` is present
in `DEFAULT_CONFIG` (as `{"morning_end": "17:30", "evening_start": "19:30"}`,
embedded as minutes) and is carried here so that theorems can speak about it. -/
structure Config where
  buffer_minutes  : Int
  max_end_time    : Int
  gym_preferences : Option (Int × Int)
deriving DecidableEq, Repr

/-- One relocation record appended to `rescheduled` by `handle_conflicts`. -/
structure Reloc where
  title     : String
  old_start : Int
  new_start : Int
  new_end   : Int
deriving DecidableEq, Repr

/-- One successful `events().update(...)` call issued by `handle_conflicts`
(the event id and the new start/end written to the calendar). -/
structure Write where
  id        : String
  new_start : Int
  new_end   : Int
deriving DecidableEq, Repr

/-- Removal of every occurrence of the completion marker, embedding the
left-to-right scan of Python's `s.replace("✓ ", "")`. -/
def stripMarkChars : List Char → List Char
  | [] => []
  | '✓' :: ' ' :: rest => stripMarkChars rest
  | c :: rest => c :: stripMarkChars rest

/-- Embedding of `s.replace("✓ ", "")`. -/
def stripMark (s : String) : String := ⟨stripMarkChars s.data⟩

/-- Embedding of `events_overlap(start1, end1, start2, end2, min_minutes)`:
`overlap = min(end1,end2) - max(start1,start2)` (in minutes) and the result is
`overlap >= min_minutes`. -/
def events_overlap (start1 end1 start2 end2 min_minutes : Int) : Bool :=
  decide (min end1 end2 - max start1 start2 ≥ min_minutes)

/-- The mathematical overlap length of two intervals, in minutes (the quantity
the spec calls `overlap_minutes`). -/
def overlapMinutes (start1 end1 start2 end2 : Int) : Int :=
  min end1 end2 - max start1 start2

/-- Embedding of the dict lookups `cal["start"]["dateTime"]` /
`cal["end"]["dateTime"]` (each missing key raises `KeyError`), composed with
`parse_datetime`, which on the absolute-minute timeline is the identity. -/
def getDT : Option GTime → Except PyErr Int
  | none => .error .keyError
  | some t =>
    match t.dateTime with
    | none => .error .keyError
    | some v => .ok v

/-- Embedding of `dt.date()` on the minute timeline (day index, floor). -/
def dateOf (t : Int) : Int := t.ediv 1440

/-- Embedding of `dt.time()` on the minute timeline (minutes after midnight). -/
def timeOf (t : Int) : Int := t.emod 1440

/-- Embedding of Python's `max(…)` over a list: `none` on the empty list
(where Python raises `ValueError`). -/
def listMax : List Int → Option Int
  | [] => none
  | x :: xs =>
    some (match listMax xs with
          | none => x
          | some m => max x m)

/-- Embedding of Python's `min(…)` over a list: `none` on the empty list
(where Python raises `ValueError`). -/
def listMin : List Int → Option Int
  | [] => none
  | x :: xs =>
    some (match listMin xs with
          | none => x
          | some m => min x m)

/-- Proleptic-Gregorian leap-year test, as used by `datetime`. -/
def isLeap (y : Int) : Bool := (y % 4 == 0 && y % 100 != 0) || y % 400 == 0

/-- Number of days in a month of the proleptic Gregorian calendar. -/
def daysInMonth (y m : Int) : Int :=
  if m = 2 then (if isLeap y then 29 else 28)
  else if m = 4 ∨ m = 6 ∨ m = 9 ∨ m = 11 then 30
  else 31

/-- Validity of the constructor call `datetime(y, m, d, h, mi)` with integer
arguments: `ValueError` is raised exactly when this is false. -/
def datetime_valid (y m d h mi : Int) : Bool :=
  decide (1 ≤ y ∧ y ≤ 9999 ∧ 1 ≤ m ∧ m ≤ 12 ∧ 1 ≤ d ∧ d ≤ daysInMonth y m ∧
          0 ≤ h ∧ h ≤ 23 ∧ 0 ≤ mi ∧ mi ≤ 59)

/-- Day number of a proleptic-Gregorian date (days since 1970-01-01, the
standard era-based civil-date computation). -/
def daysFromCivil (y m d : Int) : Int :=
  let y' := if m ≤ 2 then y - 1 else y
  let era := y'.fdiv 400
  let yoe := y' - era * 400
  let doy := (153 * (m + (if m > 2 then -3 else 9)) + 2).fdiv 5 + d - 1
  let doe := yoe * 365 + yoe.fdiv 4 - yoe.fdiv 100 + doy
  era * 146097 + doe - 719468

/-- Absolute minute of a local datetime given by calendar fields, embedding
`datetime(y, m, d, h, mi, tzinfo=…)` on the minute timeline. -/
def dateTimeToMin (y m d h mi : Int) : Int :=
  daysFromCivil y m d * 1440 + h * 60 + mi

/-- Fingerprints `(title, iso(start), iso(end))` of every scheduled block
(step 1 of `detect_conflicts`; the Python set is embedded as a list used only
for membership). -/
def schedFps (schedule_events : List SchedTuple) : List (String × Int × Int) :=
  schedule_events.map fun s =>
    (s.title, dateTimeToMin s.y s.m s.d s.sh s.sm, dateTimeToMin s.y s.m s.d s.eh s.em)

/-- The blocks of `schedule_events` whose date equals the target date
(step 2 of `detect_conflicts`). -/
def schedToday (schedule_events : List SchedTuple) (dy dm dd : Int) : List SchedBlock :=
  schedule_events.filterMap fun s =>
    if (s.y, s.m, s.d) = (dy, dm, dd) then
      some ⟨s.title, dateTimeToMin s.y s.m s.d s.sh s.sm, dateTimeToMin s.y s.m s.d s.eh s.em⟩
    else none

/-- Conflict records contributed by a single calendar entry: one per block of
today's schedule it overlaps by at least one minute. -/
def conflictsWith (cal : GEvent) (cs ce : Int) (today : List SchedBlock) : List Conflict :=
  today.filterMap fun sched =>
    if events_overlap cs ce sched.start sched.stop 1 then
      some ⟨cal, sched, cs, ce⟩
    else none

/-- Step 3 of `detect_conflicts`: the scan over the calendar entries.  An entry
missing the `"start"` or `"end"` key is skipped; an entry that has them but no
`"dateTime"` inside makes `parse_datetime(cal["start"]["dateTime"], …)` raise
`KeyError`, which propagates. -/
def detectScan (fps : List (String × Int × Int)) (today : List SchedBlock) :
    List GEvent → Except PyErr (List Conflict)
  | [] => .ok []
  | cal :: rest =>
    if cal.start.isNone ∨ cal.stop.isNone then
      detectScan fps today rest
    else
      match getDT cal.start with
      | .error er => .error er
      | .ok calStart =>
        match getDT cal.stop with
        | .error er => .error er
        | .ok calEnd =>
          if (stripMark (cal.summary.getD ""), calStart, calEnd) ∈ fps then
            detectScan fps today rest
          else
            match detectScan fps today rest with
            | .error er => .error er
            | .ok restConflicts =>
              .ok (conflictsWith cal calStart calEnd today ++ restConflicts)

/-- Embedding of `detect_conflicts(calendar_events, schedule_events, date,
timezone_str)`; the target date is given by its calendar fields. -/
def detect_conflicts (calendar_events : List GEvent) (schedule_events : List SchedTuple)
    (dy dm dd : Int) : Except PyErr (List Conflict) :=
  detectScan (schedFps schedule_events) (schedToday schedule_events dy dm dd) calendar_events

/-- Embedding of the inner helper `fixed_clashes(s, e)` of
`calculate_rescheduled_time`: the `(start, end)` pairs of calendar items that
block the slot, ignoring every event whose marker-stripped title is a schedule
title.  The dict lookups `ev["start"]["dateTime"]` / `ev["end"]["dateTime"]`
are unguarded in the source, so a missing key raises. -/
def fixed_clashes (all_events : List GEvent) (schedule_titles : List String)
    (s e : Int) : Except PyErr (List (Int × Int)) :=
  match all_events with
  | [] => .ok []
  | ev :: rest =>
    if stripMark (ev.summary.getD "") ∈ schedule_titles then
      fixed_clashes rest schedule_titles s e
    else
      match getDT ev.start with
      | .error er => .error er
      | .ok st =>
        match getDT ev.stop with
        | .error er => .error er
        | .ok en =>
          match fixed_clashes rest schedule_titles s e with
          | .error er => .error er
          | .ok tail =>
            .ok (if events_overlap s e st en 1 then (st, en) :: tail else tail)

/-- Result of the slot search: a slot, `None`, a propagated Python exception,
or exhaustion of the embedding's fuel. -/
inductive CalcResult where
  | found (new_start new_end : Int)
  | noSlot
  | err (e : PyErr)
  | fuelOut
deriving DecidableEq, Repr

/-- Embedding of the `while True` search loop of `calculate_rescheduled_time`.
Each iteration: the midnight / `max_end` guard, then the clash check against
already-accepted moves (bump to `max` end of the accepted slots overlapping by
`min_minutes=0` — the call in the bump expression omits `min_minutes` — plus
buffer), then the clash check against fixed calendar items (bump to the
smallest blocker end not below the candidate end, `min(en for st, en in
blockers if en >= end)`, plus buffer; Python's `min` raises `ValueError` when
that generator is empty). -/
def calcLoop (all_events : List GEvent) (schedule_titles : List String)
    (blocked : List (Int × Int)) (buffer duration maxEndT : Int) :
    Nat → Int → CalcResult
  | 0, _ => .fuelOut
  | fuel + 1, start =>
    let e := start + duration
    if (dateOf e = dateOf start ∧ timeOf e > maxEndT) ∨
       (dateOf e > dateOf start ∧ timeOf e > maxEndT) then
      .noSlot
    else if blocked.any fun b => events_overlap start e b.1 b.2 1 then
      match listMax ((blocked.filter fun b => events_overlap start e b.1 b.2 0).map Prod.snd) with
      | some bump => calcLoop all_events schedule_titles blocked buffer duration maxEndT fuel (bump + buffer)
      | none => .err .valueError
    else
      match fixed_clashes all_events schedule_titles start e with
      | .error er => .err er
      | .ok [] => .found start e
      | .ok blockers =>
        match listMin ((blockers.filter fun b => b.2 ≥ e).map Prod.snd) with
        | some bump => calcLoop all_events schedule_titles blocked buffer duration maxEndT fuel (bump + buffer)
        | none => .err .valueError

/-- Embedding of `calculate_rescheduled_time(event, conflicts, all_events,
config, timezone_str, blocked, schedule_titles)`.  The initial candidate start
is `max(c["manual_end"] for c in conflicts) + buffer` (Python's `max` raises
`ValueError` on an empty conflict list). -/
def calculate_rescheduled_time (fuel : Nat) (event : SchedBlock)
    (conflicts : List Conflict) (all_events : List GEvent) (config : Config)
    (blocked : List (Int × Int)) (schedule_titles : List String) : CalcResult :=
  let buffer := config.buffer_minutes
  let duration := event.stop - event.start
  match listMax (conflicts.map Conflict.manual_end) with
  | none => .err .valueError
  | some latest_end =>
    calcLoop all_events schedule_titles blocked buffer duration config.max_end_time
      fuel (latest_end + buffer)

/-- Insertion into the grouping dict `by_title` built with
`by_title.setdefault(title, []).append(c)`: appends to an existing group, else
adds a new key at the end (Python dicts preserve insertion order). -/
def addToGroup (key : String) (c : Conflict) :
    List (String × List Conflict) → List (String × List Conflict)
  | [] => [(key, [c])]
  | (k, cs) :: rest =>
    if k = key then (k, cs ++ [c]) :: rest
    else (k, cs) :: addToGroup key c rest

/-- Step 2 of `handle_conflicts`: group the conflicts by schedule-block title. -/
def groupConflicts (conflicts : List Conflict) : List (String × List Conflict) :=
  conflicts.foldl (fun gs c => addToGroup c.scheduled_event.title c gs) []

/-- The sort key `item[1][0]["scheduled_event"]["start"]` used on the grouped
conflicts (groups are created non-empty; the `0` fallback is unreachable). -/
def groupKey : String × List Conflict → Int
  | (_, c :: _) => c.scheduled_event.start
  | (_, []) => 0

/-- Step 3's `sorted(by_title.items(), key=…)`: Python's `sorted` is a stable
ascending sort, and on a total key every stable sort computes the same list,
so it is embedded as insertion sort by `groupKey`. -/
def sortGroups (gs : List (String × List Conflict)) : List (String × List Conflict) :=
  List.insertionSort (fun a b => groupKey a ≤ groupKey b) gs

/-- Result of `handle_conflicts`: the `rescheduled` list, the update calls
issued, and the final state of the (mutated) `all_events` list — or a
propagated Python exception / fuel exhaustion. -/
inductive HCResult where
  | ok (rescheduled : List Reloc) (writes : List Write) (events : List GEvent)
  | err (e : PyErr)
  | fuelOut
deriving DecidableEq, Repr

/-- Step 4 of `handle_conflicts` in non-dry-run mode: scan `all_events` for the
first entry whose marker-stripped summary equals the block title, whose
`"start"` dict has a `"dateTime"`, and whose parsed start equals the block's
original start; rewrite its start/end in place and issue the update call.  The
source reads `cal_event["end"]["dateTime"] = …` without a guard (KeyError if
the `"end"` key is missing) and `cal_event["id"]` inside the retry lambda (a
missing id raises inside the `try`, is caught by `except Exception`, and the
record is then not appended although the event was already mutated). -/
def applyUpdate (title : String) (schedStart ns ne : Int) :
    List GEvent → Except PyErr (List GEvent × List Write × Bool)
  | [] => .ok ([], [], false)
  | ev :: rest =>
    match ev.start with
    | some ⟨some calStart⟩ =>
      if stripMark (ev.summary.getD "") = title ∧ calStart = schedStart then
        match ev.stop with
        | none => .error .keyError
        | some _ =>
          let ev' := { ev with start := some ⟨some ns⟩, stop := some ⟨some ne⟩ }
          match ev.id with
          | some i => .ok (ev' :: rest, [⟨i, ns, ne⟩], true)
          | none => .ok (ev' :: rest, [], false)
      else
        match applyUpdate title schedStart ns ne rest with
        | .error er => .error er
        | .ok (rest', w, b) => .ok (ev :: rest', w, b)
    | _ =>
      match applyUpdate title schedStart ns ne rest with
      | .error er => .error er
      | .ok (rest', w, b) => .ok (ev :: rest', w, b)

/-- The per-group loop of `handle_conflicts` (step 3 onward): filter out
self-conflicts, resolve the group's first real conflict's block against the
accumulated `accepted` slots, and on success either record the move (dry run)
or also rewrite the matching calendar entry. -/
def hcLoop (fuel : Nat) (schedule_titles : List String) (config : Config)
    (dry_run : Bool) :
    List (String × List Conflict) → List GEvent → List (Int × Int) →
    List Reloc → List Write → HCResult
  | [], events, _, recs, writes => .ok recs writes events
  | (title, evConflicts) :: groups, events, accepted, recs, writes =>
    let real := evConflicts.filter
      fun c => stripMark (c.manual_event.summary.getD "") ≠ title
    match real with
    | [] => hcLoop fuel schedule_titles config dry_run groups events accepted recs writes
    | c0 :: _ =>
      let sched := c0.scheduled_event
      match calculate_rescheduled_time fuel sched real events config accepted schedule_titles with
      | .fuelOut => .fuelOut
      | .err e => .err e
      | .noSlot => hcLoop fuel schedule_titles config dry_run groups events accepted recs writes
      | .found ns ne =>
        let accepted' := accepted ++ [(ns, ne)]
        if dry_run then
          hcLoop fuel schedule_titles config dry_run groups events accepted'
            (recs ++ [⟨title, sched.start, ns, ne⟩]) writes
        else
          match applyUpdate title sched.start ns ne events with
          | .error e => .err e
          | .ok (events', w, b) =>
            hcLoop fuel schedule_titles config dry_run groups events' accepted'
              (recs ++ if b then [⟨title, sched.start, ns, ne⟩] else []) (writes ++ w)

/-- Embedding of `handle_conflicts(service, conflicts, all_events,
schedule_events, config, timezone_str, dry_run)`.  The calendar service is
embedded as an always-successful update endpoint; the update calls issued are
returned in the `writes` component. -/
def handle_conflicts (fuel : Nat) (conflicts : List Conflict)
    (all_events : List GEvent) (schedule_events : List SchedTuple)
    (config : Config) (dry_run : Bool) : HCResult :=
  if conflicts.isEmpty then .ok [] [] all_events
  else
    hcLoop fuel (schedule_events.map SchedTuple.title) config dry_run
      (sortGroups (groupConflicts conflicts)) all_events [] [] []

/-- A Python value appearing in a schedule tuple: the engine's schedules hold
strings and ints. -/
inductive PyVal where
  | vStr (s : String)
  | vInt (n : Int)
deriving DecidableEq, Repr

/-- Outcome of `validate_schedule`: normal return, a raised `ValueError`, or a
raised `TypeError` (from calling `datetime` with a non-int argument). -/
inductive VResult where
  | ok
  | valueError
  | typeError
deriving DecidableEq, Repr

/-- Coercion of a schedule-tuple field to the int that `datetime` expects. -/
def asInt : PyVal → Option Int
  | .vInt n => some n
  | .vStr _ => none

/-- Validation of one schedule tuple, following the body of the loop in
`validate_schedule`: arity check, `isinstance(title, str)` check, the two
`datetime(...)` constructions (a non-int component raises `TypeError`, an
out-of-range component raises `ValueError`, re-raised as `ValueError`), and
the tuple comparison `(sh, sm) >= (eh, em)`. -/
def validate_event (e : List PyVal) : VResult :=
  if e.length ≠ 8 then .valueError
  else
    match e with
    | [t, y, m, d, sh, sm, eh, em] =>
      match t with
      | .vInt _ => .valueError
      | .vStr _ =>
        match asInt y, asInt m, asInt d, asInt sh, asInt sm, asInt eh, asInt em with
        | some yv, some mv, some dv, some shv, some smv, some ehv, some emv =>
          if ¬ datetime_valid yv mv dv shv smv then .valueError
          else if ¬ datetime_valid yv mv dv ehv emv then .valueError
          else if shv > ehv ∨ (shv = ehv ∧ smv ≥ emv) then .valueError
          else .ok
        | _, _, _, _, _, _, _ => .typeError
    | _ => .valueError

/-- Embedding of `validate_schedule(schedule)`: the first offending tuple's
error propagates; a schedule with no offending tuple returns normally. -/
def validate_schedule (schedule : List (List PyVal)) : VResult :=
  match schedule with
  | [] => .ok
  | e :: rest =>
    match validate_event e with
    | .ok => validate_schedule rest
    | r => r

/-- Well-formedness of one schedule tuple as the code actually enforces it:
exactly 8 fields, a string title (possibly empty), integer date/time
components forming valid datetimes, and start time-of-day strictly before end
time-of-day. -/
def event_wellformed (e : List PyVal) : Bool :=
  match e with
  | [.vStr _, .vInt y, .vInt m, .vInt d, .vInt sh, .vInt sm, .vInt eh, .vInt em] =>
    datetime_valid y m d sh sm && datetime_valid y m d eh em &&
      decide (sh < eh ∨ (sh = eh ∧ sm < em))
  | _ => false

/-- The relation between an input calendar event and its state later in a
`handle_conflicts` run: either untouched, or (for an event whose
marker-stripped title is a schedule title) possibly rewritten start/end with
the summary unchanged. -/
def evRel (titles : List String) (e₀ e : GEvent) : Prop :=
  e = e₀ ∨ (stripMark (e₀.summary.getD "") ∈ titles ∧ e.summary = e₀.summary)

/-- Two placed intervals that do not overlap by one minute or more. -/
def nonOverlapping (a b : Int × Int) : Prop :=
  events_overlap a.1 a.2 b.1 b.2 1 = false

/-- An interval that overlaps no manual entry: no calendar event of `all₀`
whose marker-stripped title is outside the schedule titles, and whose
start/end carry `"dateTime"` values, overlaps `[s, e]` by one minute or more. -/
def noOverlapManual (titles : List String) (all₀ : List GEvent) (s e : Int) : Prop :=
  ∀ ev ∈ all₀, stripMark (ev.summary.getD "") ∉ titles →
    ∀ st en, getDT ev.start = .ok st → getDT ev.stop = .ok en →
      events_overlap s e st en 1 = false

/-- Invariant of the `by_title` grouping dict after the conflicts in
`processed` have been inserted: each group holds exactly the processed
conflicts whose schedule-block title equals its key, every processed conflict
has its title among the keys, keys are distinct, and groups are non-empty. -/
def groupsInv (processed : List Conflict) (gs : List (String × List Conflict)) : Prop :=
  (∀ g ∈ gs, g.2 = processed.filter fun c => c.scheduled_event.title = g.1) ∧
  (∀ c ∈ processed, c.scheduled_event.title ∈ gs.map Prod.fst) ∧
  ((gs.map Prod.fst).Nodup ∧ ∀ g ∈ gs, g.2 ≠ [])

theorem events_overlap_symm (s1 e1 s2 e2 m : Int) :
    events_overlap s1 e1 s2 e2 m = events_overlap s2 e2 s1 e1 m := by
  simp [events_overlap, min_comm, max_comm]

theorem le_listMax_of_mem {l : List Int} {x m : Int}
    (hx : x ∈ l) (hm : listMax l = some m) : x ≤ m := by
  induction l generalizing m with
  | nil => cases hx
  | cons a t ih =>
    simp only [listMax, Option.some.injEq] at hm
    rcases List.mem_cons.mp hx with rfl | hxt
    · cases ht : listMax t with
      | none => simp [ht] at hm; omega
      | some mt => simp [ht] at hm; subst hm; exact le_max_left _ _
    · cases ht : listMax t with
      | none =>
        cases t with
        | nil => cases hxt
        | cons b t' => simp [listMax] at ht
      | some mt =>
        have := ih hxt ht
        simp [ht] at hm
        subst hm
        exact le_trans this (le_max_right _ _)

theorem listMax_mem {l : List Int} {m : Int} (hm : listMax l = some m) : m ∈ l := by
  induction l generalizing m with
  | nil => simp [listMax] at hm
  | cons a t ih =>
    simp only [listMax, Option.some.injEq] at hm
    cases ht : listMax t with
    | none => simp [ht] at hm; subst hm; exact List.mem_cons_self _ _
    | some mt =>
      simp [ht] at hm
      subst hm
      rcases max_choice a mt with h | h
      · rw [h]; exact List.mem_cons_self _ _
      · rw [h]; exact List.mem_cons_of_mem _ (ih ht)

theorem listMax_isSome {l : List Int} (h : l ≠ []) : ∃ m, listMax l = some m := by
  cases l with
  | nil => exact absurd rfl h
  | cons a t => exact ⟨_, rfl⟩

theorem listMin_mem {l : List Int} {m : Int} (hm : listMin l = some m) : m ∈ l := by
  induction l generalizing m with
  | nil => simp [listMin] at hm
  | cons a t ih =>
    simp only [listMin, Option.some.injEq] at hm
    cases ht : listMin t with
    | none => simp [ht] at hm; subst hm; exact List.mem_cons_self _ _
    | some mt =>
      simp [ht] at hm
      subst hm
      rcases min_choice a mt with h | h
      · rw [h]; exact List.mem_cons_self _ _
      · rw [h]; exact List.mem_cons_of_mem _ (ih ht)

theorem listMin_le_of_mem {l : List Int} {x m : Int}
    (hx : x ∈ l) (hm : listMin l = some m) : m ≤ x := by
  induction l generalizing m with
  | nil => cases hx
  | cons a t ih =>
    simp only [listMin, Option.some.injEq] at hm
    rcases List.mem_cons.mp hx with rfl | hxt
    · cases ht : listMin t with
      | none => simp [ht] at hm; omega
      | some mt => simp [ht] at hm; subst hm; exact min_le_left _ _
    · cases ht : listMin t with
      | none =>
        cases t with
        | nil => cases hxt
        | cons b t' => simp [listMin] at ht
      | some mt =>
        have := ih hxt ht
        simp [ht] at hm
        subst hm
        exact le_trans (min_le_right _ _) this

theorem fixed_clashes_sound {all_events : List GEvent} {schedule_titles : List String}
    {s e : Int} {l : List (Int × Int)}
    (h : fixed_clashes all_events schedule_titles s e = .ok l) :
    ∀ ev ∈ all_events, stripMark (ev.summary.getD "") ∉ schedule_titles →
      ∀ st en, getDT ev.start = .ok st → getDT ev.stop = .ok en →
        events_overlap s e st en 1 = true → (st, en) ∈ l := by
  induction all_events generalizing l with
  | nil => intro ev hev; cases hev
  | cons a t ih =>
    intro ev hev htitle st en hst hen hov
    rcases List.mem_cons.mp hev with rfl | hevt
    · rw [fixed_clashes, if_neg htitle, hst, hen] at h
      cases hrec : fixed_clashes t schedule_titles s e with
      | error er => rw [hrec] at h; exact absurd h (by simp)
      | ok tail =>
        rw [hrec] at h
        injection h with h
        subst h
        rw [hov]
        exact List.mem_cons_self _ _
    · rw [fixed_clashes] at h
      by_cases hat : stripMark (a.summary.getD "") ∈ schedule_titles
      · rw [if_pos hat] at h
        exact ih h ev hevt htitle st en hst hen hov
      · rw [if_neg hat] at h
        cases has : getDT a.start with
        | error er => rw [has] at h; exact absurd h (by simp)
        | ok ast =>
          cases hae : getDT a.stop with
          | error er => rw [has, hae] at h; exact absurd h (by simp)
          | ok aen =>
            rw [has, hae] at h
            cases hrec : fixed_clashes t schedule_titles s e with
            | error er => rw [hrec] at h; exact absurd h (by simp)
            | ok tail =>
              rw [hrec] at h
              injection h with h
              subst h
              have := ih hrec ev hevt htitle st en hst hen hov
              split
              · exact List.mem_cons_of_mem _ this
              · exact this

theorem calcLoop_found_spec {all_events : List GEvent} {schedule_titles : List String}
    {blocked : List (Int × Int)} {buffer duration maxEndT : Int} :
    ∀ {fuel : Nat} {start ns ne : Int},
      calcLoop all_events schedule_titles blocked buffer duration maxEndT fuel start =
        .found ns ne →
      ne = ns + duration ∧
      fixed_clashes all_events schedule_titles ns ne = .ok [] ∧
      (∀ b ∈ blocked, events_overlap ns ne b.1 b.2 1 = false) := by
  intro fuel
  induction fuel with
  | zero => intro start ns ne h; exact CalcResult.noConfusion h
  | succ fuel ih =>
    intro start ns ne h
    simp only [calcLoop] at h
    split at h
    · exact CalcResult.noConfusion h
    · split at h
      · split at h
        · exact ih h
        · exact CalcResult.noConfusion h
      · rename_i hguard hany
        split at h
        · exact CalcResult.noConfusion h
        · rename_i hfc
          injection h with h1 h2
          subst h1
          subst h2
          refine ⟨rfl, hfc, ?_⟩
          intro b hb
          have hnot : ¬ (events_overlap start (start + duration) b.1 b.2 1 = true) :=
            fun hb' => hany (List.any_eq_true.mpr ⟨b, hb, hb'⟩)
          exact Bool.eq_false_iff.mpr hnot
        · split at h
          · exact ih h
          · exact CalcResult.noConfusion h

theorem calcLoop_found_le {all_events : List GEvent} {schedule_titles : List String}
    {blocked : List (Int × Int)} {buffer duration maxEndT : Int}
    (hbuf : 0 ≤ buffer) (hdur : 0 ≤ duration) :
    ∀ {fuel : Nat} {start ns ne : Int},
      calcLoop all_events schedule_titles blocked buffer duration maxEndT fuel start =
        .found ns ne →
      start ≤ ns := by
  intro fuel
  induction fuel with
  | zero => intro start ns ne h; exact CalcResult.noConfusion h
  | succ fuel ih =>
    intro start ns ne h
    simp only [calcLoop] at h
    split at h
    · exact CalcResult.noConfusion h
    · split at h
      · rename_i hguard hany
        split at h
        · rename_i bump hbump
          have hmem : ∃ b ∈ blocked, events_overlap start (start + duration) b.1 b.2 1 = true :=
            List.any_eq_true.mp hany
          obtain ⟨b, hb, hbov⟩ := hmem
          have hb0 : events_overlap start (start + duration) b.1 b.2 0 = true := by
            simp only [events_overlap, decide_eq_true_eq] at hbov ⊢
            omega
          have hbfilter : b ∈ blocked.filter fun b => events_overlap start (start + duration) b.1 b.2 0 :=
            List.mem_filter.mpr ⟨hb, hb0⟩
          have hbmap : b.2 ∈ (blocked.filter fun b => events_overlap start (start + duration) b.1 b.2 0).map Prod.snd :=
            List.mem_map.mpr ⟨b, hbfilter, rfl⟩
          have hle : b.2 ≤ bump := le_listMax_of_mem hbmap hbump
          have hstart : start + 1 ≤ b.2 := by
            simp only [events_overlap, decide_eq_true_eq] at hbov
            omega
          have := ih h
          omega
        · exact CalcResult.noConfusion h
      · rename_i hguard hany
        split at h
        · exact CalcResult.noConfusion h
        · injection h with h1 h2
          omega
        · rename_i blockers hne hfc
          split at h
          · rename_i bump hbump
            have hmem := listMin_mem hbump
            obtain ⟨b, hbf, hbeq⟩ := List.mem_map.mp hmem
            have hge : decide (b.2 ≥ start + duration) = true := (List.mem_filter.mp hbf).2
            have : start + duration ≤ b.2 := by simpa using hge
            have := ih h
            omega
          · exact CalcResult.noConfusion h

theorem calculate_found_spec {fuel : Nat} {event : SchedBlock} {conflicts : List Conflict}
    {all_events : List GEvent} {config : Config} {blocked : List (Int × Int)}
    {schedule_titles : List String} {ns ne : Int}
    (h : calculate_rescheduled_time fuel event conflicts all_events config blocked
        schedule_titles = .found ns ne) :
    ne = ns + (event.stop - event.start) ∧
    fixed_clashes all_events schedule_titles ns ne = .ok [] ∧
    (∀ b ∈ blocked, events_overlap ns ne b.1 b.2 1 = false) := by
  unfold calculate_rescheduled_time at h
  split at h
  · exact CalcResult.noConfusion h
  · exact calcLoop_found_spec h

theorem calculate_found_ge {fuel : Nat} {event : SchedBlock} {conflicts : List Conflict}
    {all_events : List GEvent} {config : Config} {blocked : List (Int × Int)}
    {schedule_titles : List String} {ns ne : Int} {c : Conflict}
    (hbuf : 0 ≤ config.buffer_minutes) (hc : c ∈ conflicts)
    (hov : events_overlap c.manual_start c.manual_end event.start event.stop 1 = true)
    (h : calculate_rescheduled_time fuel event conflicts all_events config blocked
        schedule_titles = .found ns ne) :
    event.start ≤ ns := by
  unfold calculate_rescheduled_time at h
  split at h
  · exact CalcResult.noConfusion h
  · rename_i latest hlatest
    have hmem : c.manual_end ∈ conflicts.map Conflict.manual_end :=
      List.mem_map.mpr ⟨c, hc, rfl⟩
    have hle : c.manual_end ≤ latest := le_listMax_of_mem hmem hlatest
    have hov' : c.manual_end ≥ event.start + 1 ∧ event.stop ≥ event.start + 1 := by
      simp only [events_overlap, decide_eq_true_eq] at hov
      omega
    have hdur : 0 ≤ event.stop - event.start := by omega
    have hns := calcLoop_found_le hbuf hdur h
    omega

theorem fixed_clashes_congr {titles : List String} {s e : Int} :
    ∀ {evs₀ evs : List GEvent}, List.Forall₂ (evRel titles) evs₀ evs →
      fixed_clashes evs titles s e = fixed_clashes evs₀ titles s e := by
  intro evs₀ evs hrel
  induction hrel with
  | nil => rfl
  | cons hab hrest ih =>
    rename_i a b l₀ l
    rcases hab with rfl | ⟨htitle, hsum⟩
    · simp only [fixed_clashes, ih]
    · have hb : stripMark (b.summary.getD "") ∈ titles := by rw [hsum]; exact htitle
      simp only [fixed_clashes, if_pos hb, if_pos htitle, ih]

theorem calcLoop_congr {titles : List String} {blocked : List (Int × Int)}
    {buffer duration maxEndT : Int} {evs₀ evs : List GEvent}
    (hrel : List.Forall₂ (evRel titles) evs₀ evs) :
    ∀ (fuel : Nat) (start : Int),
      calcLoop evs titles blocked buffer duration maxEndT fuel start =
      calcLoop evs₀ titles blocked buffer duration maxEndT fuel start := by
  intro fuel
  induction fuel with
  | zero => intro start; rfl
  | succ fuel ih =>
    intro start
    simp only [calcLoop]
    rw [fixed_clashes_congr hrel]
    split
    · rfl
    · split
      · split
        · exact ih _
        · rfl
      · split
        · rfl
        · rfl
        · split
          · exact ih _
          · rfl

theorem calculate_congr {fuel : Nat} {event : SchedBlock} {conflicts : List Conflict}
    {config : Config} {blocked : List (Int × Int)} {titles : List String}
    {evs₀ evs : List GEvent} (hrel : List.Forall₂ (evRel titles) evs₀ evs) :
    calculate_rescheduled_time fuel event conflicts evs config blocked titles =
    calculate_rescheduled_time fuel event conflicts evs₀ config blocked titles := by
  unfold calculate_rescheduled_time
  split
  · rfl
  · exact calcLoop_congr hrel fuel _

/-- C2: the slot search is not total.  On a block of 10:00–12:00 whose conflict
ends at 11:40 (buffer 30, so the candidate is 12:10–14:10) and a fixed
calendar item 12:40–13:20 lying strictly inside the candidate, every blocker
ends before the candidate end, the generator `(en for st, en in blockers if
en >= end)` is empty, and `min()` raises `ValueError` instead of the function
returning `None` — the loop exits by an uncaught exception. -/
theorem calc_raises_on_contained_obstacle :
    calculate_rescheduled_time 10 ⟨"Deep Work", 600, 720⟩
      [⟨⟨some "m1", some "Dentist", some ⟨some 630⟩, some ⟨some 700⟩⟩,
        ⟨"Deep Work", 600, 720⟩, 630, 700⟩]
      [⟨some "d1", some "Doctor", some ⟨some 760⟩, some ⟨some 800⟩⟩]
      ⟨30, 1439, some (1050, 1170)⟩ [] ["Deep Work"] = .err .valueError := by
  decide

/-- C3 counterexample: a "Gym" block (duration 60) whose conflicts end at
17:30 with buffer 30 gets the naive candidate start 18:00 (= minute 1080),
strictly inside the configured forbidden band 17:30–19:30
(`gym_preferences = (1050, 1170)`), yet `calculate_rescheduled_time` accepts
18:00–19:00 as is: the candidate is not snapped forward to the evening-window
start 19:30 (= minute 1170). -/
theorem calc_gym_band_not_snapped :
    calculate_rescheduled_time 10 ⟨"Gym", 600, 660⟩
      [⟨⟨some "m2", some "Seminar", some ⟨some 620⟩, some ⟨some 1050⟩⟩,
        ⟨"Gym", 600, 660⟩, 620, 1050⟩]
      [] ⟨30, 1439, some (1050, 1170)⟩ [] ["Gym"] = .found 1080 1140 ∧
    (1050 : Int) < 1080 ∧ (1080 : Int) < 1170 ∧ (1080 : Int) ≠ 1170 := by
  refine ⟨by decide, by decide, by decide, by decide⟩

/-- C3 amended: `calculate_rescheduled_time` never applies the configured
window preferences — its result is entirely independent of the
`gym_preferences` entry of the configuration, for every input. -/
theorem calc_gym_preferences_ignored (fuel : Nat) (event : SchedBlock)
    (conflicts : List Conflict) (all_events : List GEvent) (b m : Int)
    (g₁ g₂ : Option (Int × Int)) (blocked : List (Int × Int))
    (titles : List String) :
    calculate_rescheduled_time fuel event conflicts all_events ⟨b, m, g₁⟩ blocked titles =
    calculate_rescheduled_time fuel event conflicts all_events ⟨b, m, g₂⟩ blocked titles := rfl

/-- C5: an all-day event (present `"start"`/`"end"` keys, no `"dateTime"`
inside) is not skipped by `detect_conflicts`: the guard only tests key
presence, and `cal["start"]["dateTime"]` then raises `KeyError` instead of the
entry being ignored. -/
theorem detect_conflicts_allday_keyError :
    detect_conflicts [⟨some "v1", some "Vacation", some ⟨none⟩, some ⟨none⟩⟩]
      [⟨"Deep Work", 2025, 7, 7, 10, 0, 12, 0⟩] 2025 7 7 = .error .keyError := rfl

/-- C6 counterexample: two intervals that merely touch (`end1 = start2`) have
zero-length overlap, and with `min_minutes = 0` the code returns `0 >= 0`,
i.e. `True` — not `False` as claimed. -/
theorem events_overlap_touching_true : events_overlap 0 10 10 20 0 = true := by
  decide

/-- C6 amended: for all inputs `events_overlap` returns
`overlap_minutes >= min_minutes`; consequently strictly disjoint intervals
(negative overlap) give `false` at `min_minutes = 0`, while touching intervals
(zero-length overlap) give `true` at `min_minutes = 0` and `false` for every
`min_minutes ≥ 1`. -/
theorem events_overlap_charac :
    (∀ s1 e1 s2 e2 m : Int,
        events_overlap s1 e1 s2 e2 m = true ↔ overlapMinutes s1 e1 s2 e2 ≥ m) ∧
    (∀ s1 e1 s2 e2 : Int, overlapMinutes s1 e1 s2 e2 < 0 →
        events_overlap s1 e1 s2 e2 0 = false) ∧
    (∀ s1 e1 s2 e2 : Int, s1 ≤ e1 → s2 ≤ e2 → (e1 = s2 ∨ e2 = s1) →
        events_overlap s1 e1 s2 e2 0 = true) ∧
    (∀ s1 e1 s2 e2 : Int, s1 ≤ e1 → s2 ≤ e2 → (e1 = s2 ∨ e2 = s1) →
        ∀ m : Int, 1 ≤ m → events_overlap s1 e1 s2 e2 m = false) := by
  refine ⟨fun s1 e1 s2 e2 m => ?_, fun s1 e1 s2 e2 h => ?_,
    fun s1 e1 s2 e2 h1 h2 h => ?_, fun s1 e1 s2 e2 h1 h2 h m hm => ?_⟩
  · simp [events_overlap, overlapMinutes]
  · simp only [overlapMinutes] at h
    simp only [events_overlap, decide_eq_false_iff_not]
    omega
  · simp only [events_overlap, decide_eq_true_eq]
    omega
  · simp only [events_overlap, decide_eq_false_iff_not]
    omega

/-- Witness for the amended C6 statement at concrete intervals. -/
theorem events_overlap_charac_witness :
    (events_overlap 0 10 5 20 3 = true ↔ overlapMinutes 0 10 5 20 ≥ 3) ∧
    events_overlap 0 10 11 20 0 = false ∧
    events_overlap 0 10 10 20 0 = true ∧
    events_overlap 0 10 10 20 1 = false :=
  ⟨events_overlap_charac.1 0 10 5 20 3,
   events_overlap_charac.2.1 0 10 11 20 (by decide),
   events_overlap_charac.2.2.1 0 10 10 20 (by decide) (by decide) (Or.inl rfl),
   events_overlap_charac.2.2.2 0 10 10 20 (by decide) (by decide) (Or.inl rfl) 1 (by decide)⟩

theorem validate_event_ok_iff (e : List PyVal) :
    validate_event e = .ok ↔ event_wellformed e = true := by
  match e with
  | [] => simp [validate_event, event_wellformed]
  | [a] => simp [validate_event, event_wellformed]
  | [a, b] => simp [validate_event, event_wellformed]
  | [a, b, c] => simp [validate_event, event_wellformed]
  | [a, b, c, d] => simp [validate_event, event_wellformed]
  | [a, b, c, d, f] => simp [validate_event, event_wellformed]
  | [a, b, c, d, f, g] => simp [validate_event, event_wellformed]
  | [a, b, c, d, f, g, h] => simp [validate_event, event_wellformed]
  | [a, b, c, d, f, g, h, i] =>
    cases a <;> cases b <;> cases c <;> cases d <;> cases f <;> cases g <;> cases h <;> cases i <;>
      simp only [validate_event, event_wellformed, asInt, List.length_cons, List.length_nil] <;>
      (try split_ifs) <;> (try simp_all) <;> omega
  | a :: b :: c :: d :: f :: g :: h :: i :: j :: rest =>
    have hlen : (a :: b :: c :: d :: f :: g :: h :: i :: j :: rest).length ≠ 8 := by
      simp only [List.length_cons]
      omega
    unfold validate_event
    rw [if_pos hlen]
    simp [event_wellformed]

/-- C8 counterexample: a tuple whose title is the empty string, with otherwise
valid fields, passes `validate_schedule` without any error — the code checks
`isinstance(title, str)` only, not non-emptiness, so the claimed rejection of
empty titles does not happen. -/
theorem validate_schedule_empty_title_ok :
    validate_schedule
      [[.vStr "", .vInt 2025, .vInt 7, .vInt 7, .vInt 9, .vInt 0, .vInt 10, .vInt 0]] = .ok := by
  decide

/-- C8 amended: `validate_schedule` returns normally exactly when every tuple
has 8 fields, a string title (empty titles are accepted), integer date/time
components forming valid datetimes, and start time-of-day strictly before end
time-of-day; any offending tuple makes it raise instead (ValueError for
arity/range/order violations and a non-string title; the `datetime` calls
raise for non-integer components). -/
theorem validate_schedule_ok_iff (schedule : List (List PyVal)) :
    validate_schedule schedule = .ok ↔ ∀ e ∈ schedule, event_wellformed e = true := by
  induction schedule with
  | nil => simp [validate_schedule]
  | cons e rest ih =>
    have hstep : validate_schedule (e :: rest) = .ok ↔
        (validate_event e = .ok ∧ validate_schedule rest = .ok) := by
      rw [validate_schedule]
      cases validate_event e <;> simp
    rw [hstep, List.forall_mem_cons, validate_event_ok_iff, ih]

/-- Witness for the amended C8 statement: a concrete well-formed schedule is
accepted. -/
theorem validate_schedule_ok_iff_witness :
    validate_schedule
      [[.vStr "Deep Work", .vInt 2025, .vInt 7, .vInt 7, .vInt 9, .vInt 0, .vInt 11, .vInt 0]] = .ok :=
  (validate_schedule_ok_iff _).mpr (by decide)

theorem applyUpdate_rel {title : String} {ss ns ne : Int} :
    ∀ {evs evs' : List GEvent} {w : List Write} {b : Bool},
      applyUpdate title ss ns ne evs = .ok (evs', w, b) →
      List.Forall₂
        (fun e e' => e' = e ∨ (stripMark (e.summary.getD "") = title ∧ e'.summary = e.summary))
        evs evs' := by
  intro evs
  induction evs with
  | nil =>
    intro evs' w b h
    simp only [applyUpdate] at h
    injection h with h
    injection h with h1 h2
    subst h1
    exact List.Forall₂.nil
  | cons ev rest ih =>
    intro evs' w b h
    simp only [applyUpdate] at h
    split at h
    · rename_i calStart hstart
      split at h
      · rename_i hcond
        split at h
        · exact Except.noConfusion h
        · split at h
          · injection h with h
            injection h with h1 h2
            subst h1
            exact List.Forall₂.cons (Or.inr ⟨hcond.1, rfl⟩)
              ((List.forall₂_same).mpr fun x _ => Or.inl rfl)
          · injection h with h
            injection h with h1 h2
            subst h1
            exact List.Forall₂.cons (Or.inr ⟨hcond.1, rfl⟩)
              ((List.forall₂_same).mpr fun x _ => Or.inl rfl)
      · split at h
        · exact Except.noConfusion h
        · rename_i res hres
          injection h with h
          injection h with h1 h2
          subst h1
          exact List.Forall₂.cons (Or.inl rfl) (ih hres)
    · split at h
      · exact Except.noConfusion h
      · rename_i res hres
        injection h with h
        injection h with h1 h2
        subst h1
        exact List.Forall₂.cons (Or.inl rfl) (ih hres)

theorem evRel_compose {titles : List String} {t : String} (ht : t ∈ titles) :
    ∀ {a b c : List GEvent},
      List.Forall₂ (evRel titles) a b →
      List.Forall₂
        (fun e e' => e' = e ∨ (stripMark (e.summary.getD "") = t ∧ e'.summary = e.summary)) b c →
      List.Forall₂ (evRel titles) a c := by
  intro a b c hab
  induction hab generalizing c with
  | nil =>
    intro hbc
    cases hbc
    exact List.Forall₂.nil
  | cons hxy hrest ih =>
    rename_i x y l₁ l₂
    intro hbc
    cases hbc with
    | cons hyz htail =>
      rename_i z l₃
      refine List.Forall₂.cons ?_ (ih htail)
      rcases hyz with rfl | ⟨hyt, hsum⟩
      · exact hxy
      · rcases hxy with rfl | ⟨hxt, hsum'⟩
        · exact Or.inr ⟨hyt ▸ ht, hsum⟩
        · exact Or.inr ⟨hxt, by rw [hsum, hsum']⟩

theorem addToGroup_keys (key : String) (c : Conflict) :
    ∀ gs : List (String × List Conflict),
      (addToGroup key c gs).map Prod.fst =
        if key ∈ gs.map Prod.fst then gs.map Prod.fst else gs.map Prod.fst ++ [key] := by
  intro gs
  induction gs with
  | nil => simp [addToGroup]
  | cons g gs ih =>
    obtain ⟨k, cs⟩ := g
    by_cases hk : k = key
    · subst hk
      simp [addToGroup]
    · simp only [addToGroup, if_neg hk, List.map_cons, ih]
      have hne : ¬ key = k := fun h => hk h.symm
      by_cases hin : key ∈ gs.map Prod.fst
      · simp [hin, hne]
      · simp [hin, hne]

theorem addToGroup_nonempty (key : String) (c : Conflict) :
    ∀ gs : List (String × List Conflict),
      (∀ g ∈ gs, g.2 ≠ []) → ∀ g ∈ addToGroup key c gs, g.2 ≠ [] := by
  intro gs
  induction gs with
  | nil =>
    intro _ g hg
    simp only [addToGroup, List.mem_singleton] at hg
    subst hg
    simp
  | cons g0 gs ih =>
    obtain ⟨k, cs⟩ := g0
    intro hne g hg
    by_cases hk : k = key
    · simp only [addToGroup, if_pos hk, List.mem_cons] at hg
      rcases hg with heq | hg
      · rw [heq]
        simp
      · exact hne g (List.mem_cons_of_mem _ hg)
    · simp only [addToGroup, if_neg hk, List.mem_cons] at hg
      rcases hg with heq | hg
      · rw [heq]
        exact hne (k, cs) (List.mem_cons_self _ _)
      · exact ih (fun g' hg' => hne g' (List.mem_cons_of_mem _ hg')) g hg

theorem addToGroup_content {c : Conflict} {processed : List Conflict} :
    ∀ {gs : List (String × List Conflict)},
      (gs.map Prod.fst).Nodup →
      (∀ g ∈ gs, g.2 = processed.filter fun x => x.scheduled_event.title = g.1) →
      (c.scheduled_event.title ∉ gs.map Prod.fst →
        processed.filter (fun x => x.scheduled_event.title = c.scheduled_event.title) = []) →
      ∀ g ∈ addToGroup c.scheduled_event.title c gs,
        g.2 = (processed ++ [c]).filter fun x => x.scheduled_event.title = g.1 := by
  intro gs
  induction gs with
  | nil =>
    intro _ _ hnew g hg
    simp only [addToGroup, List.mem_singleton] at hg
    subst hg
    rw [List.filter_append, hnew (by simp)]
    simp
  | cons g0 gs ih =>
    obtain ⟨k, cs⟩ := g0
    intro hnodup hcont hnew g hg
    by_cases hk : k = c.scheduled_event.title
    · simp only [addToGroup, if_pos hk, List.mem_cons] at hg
      rcases hg with heq | hg
      · have hcs : cs = processed.filter fun x => x.scheduled_event.title = k :=
          hcont (k, cs) (List.mem_cons_self _ _)
        rw [heq]
        show cs ++ [c] = (processed ++ [c]).filter fun x => x.scheduled_event.title = k
        rw [List.filter_append, ← hcs]
        have : List.filter (fun x => decide (x.scheduled_event.title = k)) [c] = [c] := by
          simp [hk.symm]
        rw [this]
      · have hg1 : g.1 ∈ gs.map Prod.fst := List.mem_map.mpr ⟨g, hg, rfl⟩
        have hkne : g.1 ≠ k := by
          intro h
          have := (List.nodup_cons.mp hnodup).1
          exact this (h ▸ hg1)
        rw [List.filter_append]
        have hc1 : ¬ c.scheduled_event.title = g.1 := by
          rw [← hk]
          exact fun h => hkne h.symm
        have : List.filter (fun x => decide (x.scheduled_event.title = g.1)) [c] = [] := by
          simp [hc1]
        rw [this, List.append_nil]
        exact hcont g (List.mem_cons_of_mem _ hg)
    · simp only [addToGroup, if_neg hk, List.mem_cons] at hg
      rcases hg with heq | hg
      · have hcs : cs = processed.filter fun x => x.scheduled_event.title = k :=
          hcont (k, cs) (List.mem_cons_self _ _)
        rw [heq]
        show cs = (processed ++ [c]).filter fun x => x.scheduled_event.title = k
        rw [List.filter_append]
        have hck : ¬ c.scheduled_event.title = k := fun h => hk h.symm
        have : List.filter (fun x => decide (x.scheduled_event.title = k)) [c] = [] := by
          simp [hck]
        rw [this, List.append_nil]
        exact hcs
      · have hnodup' : (gs.map Prod.fst).Nodup := (List.nodup_cons.mp hnodup).2
        have hcont' : ∀ g ∈ gs, g.2 = processed.filter fun x => x.scheduled_event.title = g.1 :=
          fun g' hg' => hcont g' (List.mem_cons_of_mem _ hg')
        have hnew' : c.scheduled_event.title ∉ gs.map Prod.fst →
            processed.filter (fun x => x.scheduled_event.title = c.scheduled_event.title) = [] := by
          intro hnot
          refine hnew ?_
          simp only [List.map_cons, List.mem_cons]
          push_neg
          exact ⟨fun h => hk h.symm, hnot⟩
        exact ih hnodup' hcont' hnew' g hg

theorem groupsInv_step {processed : List Conflict} {gs : List (String × List Conflict)}
    (h : groupsInv processed gs) (c : Conflict) :
    groupsInv (processed ++ [c]) (addToGroup c.scheduled_event.title c gs) := by
  obtain ⟨hcont, hmem, hnodup, hne⟩ := h
  have hkeys := addToGroup_keys c.scheduled_event.title c gs
  refine ⟨?_, ?_, ?_, ?_⟩
  · refine addToGroup_content hnodup hcont ?_
    intro hnot
    rw [List.filter_eq_nil_iff]
    intro x hx hdec
    have : x.scheduled_event.title = c.scheduled_event.title := by simpa using hdec
    exact hnot (this ▸ hmem x hx)
  · intro c' hc'
    rw [hkeys]
    rcases List.mem_append.mp hc' with hc' | hc'
    · by_cases hin : c.scheduled_event.title ∈ gs.map Prod.fst
      · rw [if_pos hin]
        exact hmem c' hc'
      · rw [if_neg hin]
        exact List.mem_append_left _ (hmem c' hc')
    · have : c' = c := by simpa using hc'
      subst this
      by_cases hin : c'.scheduled_event.title ∈ gs.map Prod.fst
      · rw [if_pos hin]
        exact hin
      · rw [if_neg hin]
        simp
  · rw [hkeys]
    by_cases hin : c.scheduled_event.title ∈ gs.map Prod.fst
    · rw [if_pos hin]
      exact hnodup
    · rw [if_neg hin]
      simp [List.nodup_append, hnodup, hin]
  · exact addToGroup_nonempty _ _ _ hne

theorem foldl_groupsInv :
    ∀ (l processed : List Conflict) (gs : List (String × List Conflict)),
      groupsInv processed gs →
      groupsInv (processed ++ l)
        (l.foldl (fun gs c => addToGroup c.scheduled_event.title c gs) gs) := by
  intro l
  induction l with
  | nil =>
    intro processed gs h
    simpa using h
  | cons c l ih =>
    intro processed gs h
    have := ih (processed ++ [c]) _ (groupsInv_step h c)
    simpa [List.append_assoc] using this

theorem groupConflicts_inv (conflicts : List Conflict) :
    groupsInv conflicts (groupConflicts conflicts) := by
  have h0 : groupsInv [] ([] : List (String × List Conflict)) := by
    refine ⟨?_, ?_, ?_, ?_⟩ <;> simp
  have := foldl_groupsInv conflicts [] [] h0
  simpa [groupConflicts] using this

theorem sortGroups_perm (gs : List (String × List Conflict)) : List.Perm (sortGroups gs) gs :=
  List.perm_insertionSort _ gs

theorem fixed_clashes_nil_noOverlap {all₀ : List GEvent} {titles : List String} {s e : Int}
    (h : fixed_clashes all₀ titles s e = .ok []) : noOverlapManual titles all₀ s e := by
  intro ev hev htitle st en hst hen
  cases hov : events_overlap s e st en 1 with
  | false => rfl
  | true =>
    exact absurd (fixed_clashes_sound h ev hev htitle st en hst hen hov) (List.not_mem_nil _)

theorem hcLoop_dry_frame {fuel : Nat} {titles : List String} {config : Config} :
    ∀ {groups : List (String × List Conflict)} {events : List GEvent}
      {accepted : List (Int × Int)} {recs : List Reloc} {writes : List Write}
      {recsOut : List Reloc} {wOut : List Write} {evsOut : List GEvent},
      hcLoop fuel titles config true groups events accepted recs writes =
        .ok recsOut wOut evsOut →
      wOut = writes ∧ evsOut = events := by
  intro groups
  induction groups with
  | nil =>
    intro events accepted recs writes recsOut wOut evsOut h
    simp only [hcLoop] at h
    injection h with h1 h2 h3
    exact ⟨h2.symm, h3.symm⟩
  | cons g groups ih =>
    obtain ⟨title, evC⟩ := g
    intro events accepted recs writes recsOut wOut evsOut h
    simp only [hcLoop] at h
    split at h
    · exact ih h
    · split at h
      · exact HCResult.noConfusion h
      · exact HCResult.noConfusion h
      · exact ih h
      · rw [if_true] at h
        exact ih h

theorem hcLoop_titles_sublist {fuel : Nat} {titles : List String} {config : Config}
    {dry_run : Bool} :
    ∀ {groups : List (String × List Conflict)} {events : List GEvent}
      {accepted : List (Int × Int)} {recs : List Reloc} {writes : List Write}
      {recsOut : List Reloc} {wOut : List Write} {evsOut : List GEvent},
      hcLoop fuel titles config dry_run groups events accepted recs writes =
        .ok recsOut wOut evsOut →
      ∃ l, recsOut = recs ++ l ∧ List.Sublist (l.map Reloc.title) (groups.map Prod.fst) := by
  intro groups
  induction groups with
  | nil =>
    intro events accepted recs writes recsOut wOut evsOut h
    simp only [hcLoop] at h
    injection h with h1 h2 h3
    exact ⟨[], by simp [h1], by simp⟩
  | cons g groups ih =>
    obtain ⟨title, evC⟩ := g
    intro events accepted recs writes recsOut wOut evsOut h
    simp only [hcLoop] at h
    split at h
    · obtain ⟨l, hl, hsub⟩ := ih h
      exact ⟨l, hl, hsub.trans (List.sublist_cons_self _ _)⟩
    · split at h
      · exact HCResult.noConfusion h
      · exact HCResult.noConfusion h
      · obtain ⟨l, hl, hsub⟩ := ih h
        exact ⟨l, hl, hsub.trans (List.sublist_cons_self _ _)⟩
      · split at h
        · rename_i c0 tail0 hfilter xcalc ns ne hcalc hdry
          obtain ⟨l, hl, hsub⟩ := ih h
          refine ⟨⟨title, c0.scheduled_event.start, ns, ne⟩ :: l,
            by rw [hl, List.append_assoc]; rfl, ?_⟩
          simpa using List.Sublist.cons₂ title hsub
        · split at h
          · exact HCResult.noConfusion h
          · split at h
            · rename_i c0 tail0 hfilter xcalc ns ne hcalc hdry xupd events' w b happly hb
              obtain ⟨l, hl, hsub⟩ := ih h
              refine ⟨⟨title, c0.scheduled_event.start, ns, ne⟩ :: l,
                by rw [hl, List.append_assoc]; rfl, ?_⟩
              simpa using List.Sublist.cons₂ title hsub
            · obtain ⟨l, hl, hsub⟩ := ih h
              refine ⟨l, by simpa using hl, hsub.trans (List.sublist_cons_self _ _)⟩

theorem hcLoop_forward_only {fuel : Nat} {titles : List String} {config : Config}
    {dry_run : Bool} (hbuf : 0 ≤ config.buffer_minutes) :
    ∀ {groups : List (String × List Conflict)} {events : List GEvent}
      {accepted : List (Int × Int)} {recs : List Reloc} {writes : List Write}
      {recsOut : List Reloc} {wOut : List Write} {evsOut : List GEvent},
      (∀ g ∈ groups, ∀ c ∈ g.2,
        events_overlap c.manual_start c.manual_end
          c.scheduled_event.start c.scheduled_event.stop 1 = true) →
      (∀ r ∈ recs, r.old_start ≤ r.new_start) →
      hcLoop fuel titles config dry_run groups events accepted recs writes =
        .ok recsOut wOut evsOut →
      ∀ r ∈ recsOut, r.old_start ≤ r.new_start := by
  intro groups
  induction groups with
  | nil =>
    intro events accepted recs writes recsOut wOut evsOut hg hrecs h
    simp only [hcLoop] at h
    injection h with h1 h2 h3
    exact h1 ▸ hrecs
  | cons g groups ih =>
    obtain ⟨title, evC⟩ := g
    intro events accepted recs writes recsOut wOut evsOut hg hrecs h
    have hgtail : ∀ g ∈ groups, ∀ c ∈ g.2,
        events_overlap c.manual_start c.manual_end
          c.scheduled_event.start c.scheduled_event.stop 1 = true :=
      fun g' hg' => hg g' (List.mem_cons_of_mem _ hg')
    simp only [hcLoop] at h
    split at h
    · exact ih hgtail hrecs h
    · split at h
      · exact HCResult.noConfusion h
      · exact HCResult.noConfusion h
      · exact ih hgtail hrecs h
      · rename_i c0 tail0 hfilter xcalc ns ne hcalc
        have hc0filter : c0 ∈ List.filter
            (fun c => decide (stripMark (c.manual_event.summary.getD "") ≠ title)) evC := by
          rw [hfilter]
          exact List.mem_cons_self _ _
        have hc0 : c0 ∈ evC := List.mem_of_mem_filter hc0filter
        have hov := hg (title, evC) (List.mem_cons_self _ _) c0 hc0
        have hge : c0.scheduled_event.start ≤ ns :=
          calculate_found_ge hbuf hc0filter hov hcalc
        have hrecs' : ∀ r ∈ recs ++
            [(⟨title, c0.scheduled_event.start, ns, ne⟩ : Reloc)],
            r.old_start ≤ r.new_start := by
          intro r hr
          rcases List.mem_append.mp hr with hr | hr
          · exact hrecs r hr
          · have : r = ⟨title, c0.scheduled_event.start, ns, ne⟩ := by simpa using hr
            rw [this]
            exact hge
        split at h
        · exact ih hgtail hrecs' h
        · split at h
          · exact HCResult.noConfusion h
          · split at h
            · exact ih hgtail hrecs' h
            · exact ih hgtail (by simpa using hrecs) h

theorem hcLoop_no_overlap {fuel : Nat} {titles : List String} {config : Config}
    {dry_run : Bool} {all₀ : List GEvent} :
    ∀ {groups : List (String × List Conflict)} {events : List GEvent}
      {accepted : List (Int × Int)} {recs : List Reloc} {writes : List Write}
      {recsOut : List Reloc} {wOut : List Write} {evsOut : List GEvent},
      List.Forall₂ (evRel titles) all₀ events →
      (∀ g ∈ groups, g.1 ∈ titles) →
      (∀ p ∈ accepted, noOverlapManual titles all₀ p.1 p.2) →
      accepted.Pairwise nonOverlapping →
      List.Sublist (recs.map fun r => (r.new_start, r.new_end)) accepted →
      hcLoop fuel titles config dry_run groups events accepted recs writes =
        .ok recsOut wOut evsOut →
      (∀ r ∈ recsOut, noOverlapManual titles all₀ r.new_start r.new_end) ∧
      recsOut.Pairwise (fun r₁ r₂ =>
        events_overlap r₁.new_start r₁.new_end r₂.new_start r₂.new_end 1 = false) := by
  intro groups
  induction groups with
  | nil =>
    intro events accepted recs writes recsOut wOut evsOut hrel hg hacc haccPW hsub h
    simp only [hcLoop] at h
    injection h with h1 h2 h3
    subst h1
    constructor
    · intro r hr
      have hmem : (r.new_start, r.new_end) ∈ accepted :=
        hsub.subset (List.mem_map.mpr ⟨r, hr, rfl⟩)
      exact hacc _ hmem
    · have hPW := haccPW.sublist hsub
      rwa [List.pairwise_map] at hPW
  | cons g groups ih =>
    obtain ⟨title, evC⟩ := g
    intro events accepted recs writes recsOut wOut evsOut hrel hg hacc haccPW hsub h
    have hgtail : ∀ g' ∈ groups, g'.1 ∈ titles :=
      fun g' hg' => hg g' (List.mem_cons_of_mem _ hg')
    simp only [hcLoop] at h
    split at h
    · exact ih hrel hgtail hacc haccPW hsub h
    · split at h
      · exact HCResult.noConfusion h
      · exact HCResult.noConfusion h
      · exact ih hrel hgtail hacc haccPW hsub h
      · rename_i c0 tail0 hfilter xcalc ns ne hcalc
        have hcalc₀ : calculate_rescheduled_time fuel c0.scheduled_event
            (List.filter (fun c => decide (stripMark (c.manual_event.summary.getD "") ≠ title)) evC)
            all₀ config accepted titles = .found ns ne :=
          (calculate_congr hrel).symm.trans hcalc
        obtain ⟨hne_eq, hfix, hblocked⟩ := calculate_found_spec hcalc₀
        have hnoov : noOverlapManual titles all₀ ns ne := fixed_clashes_nil_noOverlap hfix
        have hacc' : ∀ p ∈ accepted ++ [(ns, ne)], noOverlapManual titles all₀ p.1 p.2 := by
          intro p hp
          rcases List.mem_append.mp hp with hp | hp
          · exact hacc p hp
          · have hpe : p = (ns, ne) := by simpa using hp
            rw [hpe]
            exact hnoov
        have haccPW' : (accepted ++ [(ns, ne)]).Pairwise nonOverlapping := by
          rw [List.pairwise_append]
          refine ⟨haccPW, by simp, ?_⟩
          intro a ha p hp
          have hpe : p = (ns, ne) := by simpa using hp
          rw [hpe]
          show events_overlap a.1 a.2 ns ne 1 = false
          rw [events_overlap_symm]
          exact hblocked a ha
        split at h
        · have hsub' : List.Sublist
              ((recs ++ [(⟨title, c0.scheduled_event.start, ns, ne⟩ : Reloc)]).map
                fun r => (r.new_start, r.new_end))
              (accepted ++ [(ns, ne)]) := by
            rw [List.map_append]
            exact List.Sublist.append hsub (by simp)
          exact ih hrel hgtail hacc' haccPW' hsub' h
        · split at h
          · exact HCResult.noConfusion h
          · rename_i xupd events' w b happly
            have htitle : title ∈ titles := hg (title, evC) (List.mem_cons_self _ _)
            have hrel' : List.Forall₂ (evRel titles) all₀ events' :=
              evRel_compose htitle hrel (applyUpdate_rel happly)
            split at h
            · have hsub' : List.Sublist
                  ((recs ++ [(⟨title, c0.scheduled_event.start, ns, ne⟩ : Reloc)]).map
                    fun r => (r.new_start, r.new_end))
                  (accepted ++ [(ns, ne)]) := by
                rw [List.map_append]
                exact List.Sublist.append hsub (by simp)
              exact ih hrel' hgtail hacc' haccPW' hsub' h
            · rw [List.append_nil] at h
              have hsub' : List.Sublist (recs.map fun r => (r.new_start, r.new_end))
                  (accepted ++ [(ns, ne)]) :=
                hsub.trans (List.sublist_append_left _ _)
              exact ih hrel' hgtail hacc' haccPW' hsub' h

theorem hcLoop_cons_skip {fuel : Nat} {titles : List String} {config : Config} {dr : Bool}
    {title : String} {evC : List Conflict} {groups : List (String × List Conflict)}
    {events : List GEvent} {accepted : List (Int × Int)} {recs : List Reloc}
    {writes : List Write}
    (hreal : List.filter
      (fun c => decide (stripMark (c.manual_event.summary.getD "") ≠ title)) evC = []) :
    hcLoop fuel titles config dr ((title, evC) :: groups) events accepted recs writes =
    hcLoop fuel titles config dr groups events accepted recs writes := by
  simp only [hcLoop]
  rw [hreal]

theorem hcLoop_cons_step {fuel : Nat} {titles : List String} {config : Config} {dr : Bool}
    {title : String} {evC : List Conflict} {groups : List (String × List Conflict)}
    {events : List GEvent} {accepted : List (Int × Int)} {recs : List Reloc}
    {writes : List Write} {c0 : Conflict} {tail0 : List Conflict}
    (hreal : List.filter
      (fun c => decide (stripMark (c.manual_event.summary.getD "") ≠ title)) evC =
      c0 :: tail0) :
    hcLoop fuel titles config dr ((title, evC) :: groups) events accepted recs writes =
      match calculate_rescheduled_time fuel c0.scheduled_event (c0 :: tail0) events config
          accepted titles with
      | .fuelOut => .fuelOut
      | .err e => .err e
      | .noSlot => hcLoop fuel titles config dr groups events accepted recs writes
      | .found ns ne =>
        if dr then
          hcLoop fuel titles config dr groups events (accepted ++ [(ns, ne)])
            (recs ++ [⟨title, c0.scheduled_event.start, ns, ne⟩]) writes
        else
          match applyUpdate title c0.scheduled_event.start ns ne events with
          | .error e => .err e
          | .ok (events', w, b) =>
            hcLoop fuel titles config dr groups events' (accepted ++ [(ns, ne)])
              (recs ++ if b then [⟨title, c0.scheduled_event.start, ns, ne⟩] else [])
              (writes ++ w) := by
  simp only [hcLoop]
  rw [hreal]

theorem hcLoop_apply_to_dry {fuel : Nat} {titles : List String} {config : Config}
    {all₀ : List GEvent} :
    ∀ {groups : List (String × List Conflict)} {events_a : List GEvent}
      {accepted : List (Int × Int)} {recs_d recs_a : List Reloc}
      {w_d w_a : List Write} {Ra : List Reloc} {Wa : List Write} {Ea : List GEvent},
      List.Forall₂ (evRel titles) all₀ events_a →
      (∀ g ∈ groups, g.1 ∈ titles) →
      List.Sublist recs_a recs_d →
      hcLoop fuel titles config false groups events_a accepted recs_a w_a =
        .ok Ra Wa Ea →
      ∃ Rd, hcLoop fuel titles config true groups all₀ accepted recs_d w_d =
          .ok Rd w_d all₀ ∧ List.Sublist Ra Rd := by
  intro groups
  induction groups with
  | nil =>
    intro events_a accepted recs_d recs_a w_d w_a Ra Wa Ea hrel hg hsub ha
    simp only [hcLoop] at ha ⊢
    injection ha with h1 h2 h3
    exact ⟨recs_d, rfl, h1 ▸ hsub⟩
  | cons g groups ih =>
    obtain ⟨title, evC⟩ := g
    intro events_a accepted recs_d recs_a w_d w_a Ra Wa Ea hrel hg hsub ha
    have hgtail : ∀ g' ∈ groups, g'.1 ∈ titles :=
      fun g' hg' => hg g' (List.mem_cons_of_mem _ hg')
    have htitle : title ∈ titles := hg (title, evC) (List.mem_cons_self _ _)
    cases hreal : List.filter
        (fun c => decide (stripMark (c.manual_event.summary.getD "") ≠ title)) evC with
    | nil =>
      rw [hcLoop_cons_skip hreal] at ha
      rw [hcLoop_cons_skip hreal]
      exact ih hrel hgtail hsub ha
    | cons c0 tail0 =>
      rw [hcLoop_cons_step hreal] at ha
      rw [hcLoop_cons_step hreal]
      rw [calculate_congr hrel] at ha
      cases hcalc : calculate_rescheduled_time fuel c0.scheduled_event (c0 :: tail0) all₀
          config accepted titles with
      | fuelOut =>
        rw [hcalc] at ha
        exact HCResult.noConfusion ha
      | err e =>
        rw [hcalc] at ha
        exact HCResult.noConfusion ha
      | noSlot =>
        rw [hcalc] at ha
        exact ih hrel hgtail hsub ha
      | found ns ne =>
        rw [hcalc] at ha
        have ha2 : (match applyUpdate title c0.scheduled_event.start ns ne events_a with
            | .error e => HCResult.err e
            | .ok (events', w, b) =>
              hcLoop fuel titles config false groups events' (accepted ++ [(ns, ne)])
                (recs_a ++
                  if b then [(⟨title, c0.scheduled_event.start, ns, ne⟩ : Reloc)] else [])
                (w_a ++ w)) = HCResult.ok Ra Wa Ea := ha
        cases happly : applyUpdate title c0.scheduled_event.start ns ne events_a with
        | error e =>
          rw [happly] at ha2
          exact HCResult.noConfusion ha2
        | ok upd =>
          obtain ⟨events', w, b⟩ := upd
          rw [happly] at ha2
          have ha3 : hcLoop fuel titles config false groups events' (accepted ++ [(ns, ne)])
              (recs_a ++
                if b then [(⟨title, c0.scheduled_event.start, ns, ne⟩ : Reloc)] else [])
              (w_a ++ w) = HCResult.ok Ra Wa Ea := ha2
          have hrel' : List.Forall₂ (evRel titles) all₀ events' :=
            evRel_compose htitle hrel (applyUpdate_rel happly)
          cases b with
          | true =>
            rw [if_pos rfl] at ha3
            have hsub' : List.Sublist
                (recs_a ++ [(⟨title, c0.scheduled_event.start, ns, ne⟩ : Reloc)])
                (recs_d ++ [(⟨title, c0.scheduled_event.start, ns, ne⟩ : Reloc)]) :=
              List.Sublist.append hsub (List.Sublist.refl _)
            obtain ⟨Rd, hd, hRa⟩ := ih hrel' hgtail hsub' ha3
            exact ⟨Rd, hd, hRa⟩
          | false =>
            rw [if_neg (by simp), List.append_nil] at ha3
            have hsub' : List.Sublist recs_a
                (recs_d ++ [(⟨title, c0.scheduled_event.start, ns, ne⟩ : Reloc)]) :=
              hsub.trans (List.sublist_append_left _ _)
            obtain ⟨Rd, hd, hRa⟩ := ih hrel' hgtail hsub' ha3
            exact ⟨Rd, hd, hRa⟩

theorem detectScan_sched_mem {fps : List (String × Int × Int)} {today : List SchedBlock} :
    ∀ {evs : List GEvent} {cs : List Conflict},
      detectScan fps today evs = .ok cs → ∀ c ∈ cs, c.scheduled_event ∈ today := by
  intro evs
  induction evs with
  | nil =>
    intro cs h c hc
    simp only [detectScan] at h
    injection h with h
    subst h
    cases hc
  | cons cal rest ih =>
    intro cs h c hc
    simp only [detectScan] at h
    split at h
    · exact ih h c hc
    · split at h
      · exact Except.noConfusion h
      · split at h
        · exact Except.noConfusion h
        · split at h
          · exact ih h c hc
          · split at h
            · exact Except.noConfusion h
            · rename_i cs1 hcs1 cs2 hrest
              injection h with h
              subst h
              rcases List.mem_append.mp hc with hc | hc
              · simp only [conflictsWith, List.mem_filterMap] at hc
                obtain ⟨sched, hsched, hsome⟩ := hc
                split at hsome
                · injection hsome with hsome
                  rw [← hsome]
                  exact hsched
                · exact Option.noConfusion hsome
              · exact ih hrest c hc

theorem detect_conflicts_titles {calendar_events : List GEvent}
    {schedule_events : List SchedTuple} {dy dm dd : Int} {cs : List Conflict}
    (h : detect_conflicts calendar_events schedule_events dy dm dd = .ok cs) :
    ∀ c ∈ cs, c.scheduled_event.title ∈ schedule_events.map SchedTuple.title := by
  intro c hc
  have hmem : c.scheduled_event ∈ schedToday schedule_events dy dm dd :=
    detectScan_sched_mem h c hc
  simp only [schedToday, List.mem_filterMap] at hmem
  obtain ⟨s, hs, hsome⟩ := hmem
  split at hsome
  · injection hsome with hsome
    rw [← hsome]
    exact List.mem_map.mpr ⟨s, hs, rfl⟩
  · exact Option.noConfusion hsome

/-- C4 counterexample: block 10:00–12:00, conflict ending 11:40, buffer 30
gives the candidate 12:10–14:10 (minutes 730–850).  The two fixed obstacles
ending at minutes 900 and 920 both overlap it by ≥ 1 minute, so under the
claimed rule the next candidate start would be
`latest end + buffer = 920 + 30 = 950` and no returned slot could start
before 950.  The code instead bumps to
`min(en for st, en in blockers if en >= end) + buffer = 900 + 30 = 930` and
returns the slot 930–1050, which starts before 950. -/
theorem calc_bump_not_latest_end :
    calculate_rescheduled_time 10 ⟨"Deep Work", 600, 720⟩
      [⟨⟨some "m1", some "Dentist", some ⟨some 630⟩, some ⟨some 700⟩⟩,
        ⟨"Deep Work", 600, 720⟩, 630, 700⟩]
      [⟨some "a", some "Lunch", some ⟨some 780⟩, some ⟨some 900⟩⟩,
       ⟨some "b", some "Workshop", some ⟨some 740⟩, some ⟨some 920⟩⟩]
      ⟨30, 1439, none⟩ [] ["Deep Work"] = .found 930 1050 ∧
    (930 : Int) ≠ 950 := by
  exact ⟨by decide, by decide⟩

/-- C4 amended: in an iteration that passes the max-end guard, if at least one
already-accepted slot overlaps the candidate by ≥ 1 minute, the next candidate
start is the latest end among the accepted slots overlapping by ≥ 0 minutes,
plus buffer (the accepted moves are checked first and fixed obstacles play no
role in that bump); otherwise, if fixed obstacles block the slot, the next
candidate start is the smallest obstacle end that is not below the candidate
end, plus buffer — and when every blocking obstacle ends before the candidate
end, the iteration raises `ValueError` instead of bumping. -/
theorem calc_bump_rule (all_events : List GEvent) (titles : List String)
    (blocked : List (Int × Int)) (buffer duration maxEndT : Int) (fuel : Nat)
    (start : Int)
    (hguard : ¬ ((dateOf (start + duration) = dateOf start ∧
        timeOf (start + duration) > maxEndT) ∨
      (dateOf (start + duration) > dateOf start ∧
        timeOf (start + duration) > maxEndT))) :
    ((∃ b ∈ blocked, events_overlap start (start + duration) b.1 b.2 1 = true) →
      ∃ bump,
        bump ∈ (blocked.filter fun b =>
          events_overlap start (start + duration) b.1 b.2 0).map Prod.snd ∧
        (∀ x ∈ (blocked.filter fun b =>
          events_overlap start (start + duration) b.1 b.2 0).map Prod.snd, x ≤ bump) ∧
        calcLoop all_events titles blocked buffer duration maxEndT (fuel + 1) start =
          calcLoop all_events titles blocked buffer duration maxEndT fuel (bump + buffer)) ∧
    (∀ blockers : List (Int × Int),
      (∀ b ∈ blocked, events_overlap start (start + duration) b.1 b.2 1 = false) →
      fixed_clashes all_events titles start (start + duration) = .ok blockers →
      blockers ≠ [] →
      ((∃ bump,
          bump ∈ (blockers.filter fun b => b.2 ≥ start + duration).map Prod.snd ∧
          (∀ x ∈ (blockers.filter fun b => b.2 ≥ start + duration).map Prod.snd, bump ≤ x) ∧
          calcLoop all_events titles blocked buffer duration maxEndT (fuel + 1) start =
            calcLoop all_events titles blocked buffer duration maxEndT fuel (bump + buffer)) ∨
        ((blockers.filter fun b => b.2 ≥ start + duration) = [] ∧
          calcLoop all_events titles blocked buffer duration maxEndT (fuel + 1) start =
            .err .valueError))) := by
  constructor
  · intro hex
    obtain ⟨b, hb, hbov⟩ := hex
    have hany : (blocked.any fun b => events_overlap start (start + duration) b.1 b.2 1) = true :=
      List.any_eq_true.mpr ⟨b, hb, hbov⟩
    have hb0 : events_overlap start (start + duration) b.1 b.2 0 = true := by
      simp only [events_overlap, decide_eq_true_eq] at hbov ⊢
      omega
    have hbmem : b.2 ∈ (blocked.filter fun b =>
        events_overlap start (start + duration) b.1 b.2 0).map Prod.snd :=
      List.mem_map.mpr ⟨b, List.mem_filter.mpr ⟨hb, hb0⟩, rfl⟩
    obtain ⟨m, hm⟩ := listMax_isSome
      (l := (blocked.filter fun b =>
        events_overlap start (start + duration) b.1 b.2 0).map Prod.snd)
      (by intro hnil; rw [hnil] at hbmem; cases hbmem)
    refine ⟨m, listMax_mem hm, fun x hx => le_listMax_of_mem hx hm, ?_⟩
    simp only [calcLoop]
    rw [if_neg hguard, if_pos hany, hm]
  · intro blockers hnone hfc hnenil
    have hany : (blocked.any fun b => events_overlap start (start + duration) b.1 b.2 1) = false := by
      rw [List.any_eq_false]
      intro b hb
      rw [hnone b hb]
      simp
    cases blockers with
    | nil => exact absurd rfl hnenil
    | cons b0 bs =>
      have hstep : calcLoop all_events titles blocked buffer duration maxEndT (fuel + 1) start =
          (match listMin (((b0 :: bs).filter fun b => b.2 ≥ start + duration).map Prod.snd) with
           | some bump =>
             calcLoop all_events titles blocked buffer duration maxEndT fuel (bump + buffer)
           | none => CalcResult.err PyErr.valueError) := by
        simp only [calcLoop]
        rw [if_neg hguard, if_neg (by simp [hany]), hfc]
      cases hmin : listMin (((b0 :: bs).filter fun b => b.2 ≥ start + duration).map Prod.snd) with
      | none =>
        have hfil : ((b0 :: bs).filter fun b => b.2 ≥ start + duration) = [] := by
          cases hf : (b0 :: bs).filter fun b => b.2 ≥ start + duration with
          | nil => rfl
          | cons x xs =>
            rw [hf] at hmin
            simp [listMin] at hmin
        refine Or.inr ⟨hfil, ?_⟩
        rw [hstep, hmin]
      | some m =>
        refine Or.inl ⟨m, listMin_mem hmin, fun x hx => listMin_le_of_mem hx hmin, ?_⟩
        rw [hstep, hmin]

theorem sortGroups_titles_mem {conflicts : List Conflict} {titles : List String}
    (hsched : ∀ c ∈ conflicts, c.scheduled_event.title ∈ titles) :
    ∀ g ∈ sortGroups (groupConflicts conflicts), g.1 ∈ titles := by
  intro g hg
  have hmem : g ∈ groupConflicts conflicts := (sortGroups_perm _).subset hg
  obtain ⟨hA, hB, hC, hD⟩ := groupConflicts_inv conflicts
  obtain ⟨c, hc⟩ := List.exists_mem_of_ne_nil _ (hD g hmem)
  have hcfil : c ∈ conflicts.filter fun x => x.scheduled_event.title = g.1 :=
    hA g hmem ▸ hc
  have hsplit := List.mem_filter.mp hcfil
  have heq : c.scheduled_event.title = g.1 := by simpa using hsplit.2
  exact heq ▸ hsched c hsplit.1

theorem sortGroups_conflicts_mem {conflicts : List Conflict} :
    ∀ g ∈ sortGroups (groupConflicts conflicts), ∀ c ∈ g.2, c ∈ conflicts := by
  intro g hg c hc
  have hmem : g ∈ groupConflicts conflicts := (sortGroups_perm _).subset hg
  obtain ⟨hA, hB, hC, hD⟩ := groupConflicts_inv conflicts
  have hcfil : c ∈ conflicts.filter fun x => x.scheduled_event.title = g.1 :=
    hA g hmem ▸ hc
  exact (List.mem_filter.mp hcfil).1

/-- C1: no-overlap postcondition.  (a) Whenever
`calculate_rescheduled_time` returns a slot, that slot overlaps by ≥ 1 minute
neither any `all_events` entry whose marker-stripped title is not a schedule
title nor any interval of `blocked`.  (b) Consequently, in a
`handle_conflicts` run whose conflicts carry schedule-block titles (as
`detect_conflicts` guarantees, see `detect_conflicts_titles`), every returned
relocation overlaps no manual (non-schedule-titled) calendar entry of the
input event list by ≥ 1 minute, and no two returned relocations overlap each
other by ≥ 1 minute. -/
theorem calc_and_handle_no_overlap :
    (∀ (fuel : Nat) (event : SchedBlock) (conflicts : List Conflict)
        (all_events : List GEvent) (config : Config) (blocked : List (Int × Int))
        (schedule_titles : List String) (ns ne : Int),
      calculate_rescheduled_time fuel event conflicts all_events config blocked
        schedule_titles = .found ns ne →
      noOverlapManual schedule_titles all_events ns ne ∧
      (∀ b ∈ blocked, events_overlap ns ne b.1 b.2 1 = false)) ∧
    (∀ (fuel : Nat) (conflicts : List Conflict) (all_events : List GEvent)
        (schedule_events : List SchedTuple) (config : Config) (dry_run : Bool)
        (recs : List Reloc) (writes : List Write) (events' : List GEvent),
      (∀ c ∈ conflicts, c.scheduled_event.title ∈ schedule_events.map SchedTuple.title) →
      handle_conflicts fuel conflicts all_events schedule_events config dry_run =
        .ok recs writes events' →
      (∀ r ∈ recs, noOverlapManual (schedule_events.map SchedTuple.title)
        all_events r.new_start r.new_end) ∧
      recs.Pairwise (fun r₁ r₂ =>
        events_overlap r₁.new_start r₁.new_end r₂.new_start r₂.new_end 1 = false)) := by
  constructor
  · intro fuel event conflicts all_events config blocked schedule_titles ns ne h
    obtain ⟨-, hfix, hblocked⟩ := calculate_found_spec h
    exact ⟨fixed_clashes_nil_noOverlap hfix, hblocked⟩
  · intro fuel conflicts all_events schedule_events config dry_run recs writes events' hsched h
    unfold handle_conflicts at h
    split at h
    · injection h with h1 h2 h3
      subst h1
      exact ⟨fun r hr => absurd hr (List.not_mem_nil r), List.Pairwise.nil⟩
    · exact hcLoop_no_overlap (List.forall₂_same.mpr fun e _ => Or.inl rfl)
        (sortGroups_titles_mem hsched) (fun p hp => absurd hp (List.not_mem_nil p))
        List.Pairwise.nil (by simp) h

/-- Witness for C1 at the spec's Scenario A: "Deep Work" 09:00–11:00
(minutes 540–660), manual "Dentist" 10:00–10:30 (600–630), buffer 30; the
relocation 11:00–13:00 (660–780) overlaps neither the dentist appointment nor
anything else. -/
theorem calc_and_handle_no_overlap_witness :
    noOverlapManual ["Deep Work"]
      [⟨some "m1", some "Dentist", some ⟨some 600⟩, some ⟨some 630⟩⟩] 660 780 ∧
    events_overlap 660 780 600 630 1 = false := by
  have H := calc_and_handle_no_overlap.2 10
    [⟨⟨some "m1", some "Dentist", some ⟨some 600⟩, some ⟨some 630⟩⟩,
      ⟨"Deep Work", 540, 660⟩, 600, 630⟩]
    [⟨some "m1", some "Dentist", some ⟨some 600⟩, some ⟨some 630⟩⟩]
    [⟨"Deep Work", 2025, 7, 7, 9, 0, 11, 0⟩] ⟨30, 1439, none⟩ true
    [⟨"Deep Work", 540, 660, 780⟩] []
    [⟨some "m1", some "Dentist", some ⟨some 600⟩, some ⟨some 630⟩⟩]
    (by decide) rfl
  refine ⟨H.1 _ (List.mem_cons_self _ _), ?_⟩
  exact H.1 _ (List.mem_cons_self _ _) _ (List.mem_cons_self _ _) (by decide) 600 630 rfl rfl

/-- C7: forward-only movement.  For a non-negative buffer and conflicts whose
manual interval really overlaps their scheduled block by ≥ 1 minute (which is
what `detect_conflicts` produces, `min_minutes=1`), every relocation returned
by `handle_conflicts` moves its block forward: `old_start ≤ new_start`. -/
theorem handle_conflicts_forward_only
    (fuel : Nat) (conflicts : List Conflict) (all_events : List GEvent)
    (schedule_events : List SchedTuple) (config : Config) (dry_run : Bool)
    (recs : List Reloc) (writes : List Write) (events' : List GEvent)
    (hbuf : 0 ≤ config.buffer_minutes)
    (hov : ∀ c ∈ conflicts, events_overlap c.manual_start c.manual_end
      c.scheduled_event.start c.scheduled_event.stop 1 = true)
    (h : handle_conflicts fuel conflicts all_events schedule_events config dry_run =
      .ok recs writes events') :
    ∀ r ∈ recs, r.old_start ≤ r.new_start := by
  unfold handle_conflicts at h
  split at h
  · injection h with h1 h2 h3
    subst h1
    exact fun r hr => absurd hr (List.not_mem_nil r)
  · refine hcLoop_forward_only hbuf ?_ (fun r hr => absurd hr (List.not_mem_nil r)) h
    intro g hg c hc
    exact hov c (sortGroups_conflicts_mem g hg c hc)

/-- Witness for C7 at Scenario A: the "Deep Work" block originally at minute
540 is relocated to start at minute 660 ≥ 540. -/
theorem handle_conflicts_forward_only_witness :
    Reloc.old_start ⟨"Deep Work", 540, 660, 780⟩ ≤
    Reloc.new_start ⟨"Deep Work", 540, 660, 780⟩ :=
  handle_conflicts_forward_only 10
    [⟨⟨some "m1", some "Dentist", some ⟨some 600⟩, some ⟨some 630⟩⟩,
      ⟨"Deep Work", 540, 660⟩, 600, 630⟩]
    [⟨some "m1", some "Dentist", some ⟨some 600⟩, some ⟨some 630⟩⟩]
    [⟨"Deep Work", 2025, 7, 7, 9, 0, 11, 0⟩] ⟨30, 1439, none⟩ true
    [⟨"Deep Work", 540, 660, 780⟩] []
    [⟨some "m1", some "Dentist", some ⟨some 600⟩, some ⟨some 630⟩⟩]
    (by decide) (by decide) rfl _ (List.mem_cons_self _ _)

/-- C9: grouping is by title alone.  (a) Each group of the `by_title` dict
holds exactly the conflicts whose schedule-block title equals the group key —
two same-titled blocks' conflicts are merged into the single group under that
title.  (b) Since each group is resolved at most once (against the scheduled
block of its first real conflict), a `handle_conflicts` run emits at most one
relocation record per distinct title: the returned titles are pairwise
distinct. -/
theorem handle_conflicts_group_by_title :
    (∀ (conflicts : List Conflict), ∀ g ∈ groupConflicts conflicts,
      g.2 = conflicts.filter fun c => c.scheduled_event.title = g.1) ∧
    (∀ (fuel : Nat) (conflicts : List Conflict) (all_events : List GEvent)
        (schedule_events : List SchedTuple) (config : Config) (dry_run : Bool)
        (recs : List Reloc) (writes : List Write) (events' : List GEvent),
      handle_conflicts fuel conflicts all_events schedule_events config dry_run =
        .ok recs writes events' →
      (recs.map Reloc.title).Nodup) := by
  constructor
  · intro conflicts g hg
    exact (groupConflicts_inv conflicts).1 g hg
  · intro fuel conflicts all_events schedule_events config dry_run recs writes events' h
    unfold handle_conflicts at h
    split at h
    · injection h with h1 h2 h3
      subst h1
      simp
    · obtain ⟨l, hl, hsub⟩ := hcLoop_titles_sublist h
      have hrecs : recs = l := by simpa using hl
      subst hrecs
      have hnodup : ((groupConflicts conflicts).map Prod.fst).Nodup :=
        (groupConflicts_inv conflicts).2.2.1
      have hperm : List.Perm ((sortGroups (groupConflicts conflicts)).map Prod.fst)
          ((groupConflicts conflicts).map Prod.fst) :=
        (sortGroups_perm _).map _
      exact List.Nodup.sublist hsub (hperm.nodup_iff.mpr hnodup)

/-- Witness for C9: two distinct same-day "Deep Work" blocks (540–660 and
900–960), each conflicting with its own manual entry, end up in a single
group keyed by the title, and the run emits exactly one relocation, so the
returned title list is duplicate-free. -/
theorem handle_conflicts_group_by_title_witness :
    (("Deep Work",
      [(⟨⟨some "m1", some "Dentist", some ⟨some 600⟩, some ⟨some 630⟩⟩,
         ⟨"Deep Work", 540, 660⟩, 600, 630⟩ : Conflict),
       ⟨⟨some "m2", some "Doctor", some ⟨some 910⟩, some ⟨some 940⟩⟩,
         ⟨"Deep Work", 900, 960⟩, 910, 940⟩]) :
        String × List Conflict).2 =
      [(⟨⟨some "m1", some "Dentist", some ⟨some 600⟩, some ⟨some 630⟩⟩,
         ⟨"Deep Work", 540, 660⟩, 600, 630⟩ : Conflict),
       ⟨⟨some "m2", some "Doctor", some ⟨some 910⟩, some ⟨some 940⟩⟩,
         ⟨"Deep Work", 900, 960⟩, 910, 940⟩].filter
        (fun c => c.scheduled_event.title =
          ("Deep Work",
            [(⟨⟨some "m1", some "Dentist", some ⟨some 600⟩, some ⟨some 630⟩⟩,
               ⟨"Deep Work", 540, 660⟩, 600, 630⟩ : Conflict),
             ⟨⟨some "m2", some "Doctor", some ⟨some 910⟩, some ⟨some 940⟩⟩,
               ⟨"Deep Work", 900, 960⟩, 910, 940⟩]).1) ∧
    (([(⟨"Deep Work", 540, 970, 1090⟩ : Reloc)]).map Reloc.title).Nodup :=
  ⟨handle_conflicts_group_by_title.1
    [⟨⟨some "m1", some "Dentist", some ⟨some 600⟩, some ⟨some 630⟩⟩,
       ⟨"Deep Work", 540, 660⟩, 600, 630⟩,
     ⟨⟨some "m2", some "Doctor", some ⟨some 910⟩, some ⟨some 940⟩⟩,
       ⟨"Deep Work", 900, 960⟩, 910, 940⟩] _ (by decide),
   handle_conflicts_group_by_title.2 10
    [⟨⟨some "m1", some "Dentist", some ⟨some 600⟩, some ⟨some 630⟩⟩,
       ⟨"Deep Work", 540, 660⟩, 600, 630⟩,
     ⟨⟨some "m2", some "Doctor", some ⟨some 910⟩, some ⟨some 940⟩⟩,
       ⟨"Deep Work", 900, 960⟩, 910, 940⟩]
    [⟨some "m1", some "Dentist", some ⟨some 600⟩, some ⟨some 630⟩⟩,
     ⟨some "m2", some "Doctor", some ⟨some 910⟩, some ⟨some 940⟩⟩]
    [⟨"Deep Work", 2025, 7, 7, 9, 0, 11, 0⟩] ⟨30, 1439, none⟩ true
    [⟨"Deep Work", 540, 970, 1090⟩] []
    [⟨some "m1", some "Dentist", some ⟨some 600⟩, some ⟨some 630⟩⟩,
     ⟨some "m2", some "Doctor", some ⟨some 910⟩, some ⟨some 940⟩⟩] rfl⟩

/-- C10 counterexample: with conflicts whose scheduled "Deep Work" block has
no matching calendar entry in `all_events` (only the manual "Dentist" entry is
there), the dry run returns the computed relocation record while the applying
run computes the same slot but returns an empty record list — the two returned
lists differ, refuting "returns the records exactly as it would compute them
when applying". -/
theorem handle_conflicts_dry_apply_differ :
    handle_conflicts 10
      [⟨⟨some "m1", some "Dentist", some ⟨some 630⟩, some ⟨some 700⟩⟩,
        ⟨"Deep Work", 600, 720⟩, 630, 700⟩]
      [⟨some "m1", some "Dentist", some ⟨some 630⟩, some ⟨some 700⟩⟩]
      [⟨"Deep Work", 2025, 7, 7, 10, 0, 12, 0⟩] ⟨30, 1439, none⟩ true =
      .ok [⟨"Deep Work", 600, 730, 850⟩] []
        [⟨some "m1", some "Dentist", some ⟨some 630⟩, some ⟨some 700⟩⟩] ∧
    handle_conflicts 10
      [⟨⟨some "m1", some "Dentist", some ⟨some 630⟩, some ⟨some 700⟩⟩,
        ⟨"Deep Work", 600, 720⟩, 630, 700⟩]
      [⟨some "m1", some "Dentist", some ⟨some 630⟩, some ⟨some 700⟩⟩]
      [⟨"Deep Work", 2025, 7, 7, 10, 0, 12, 0⟩] ⟨30, 1439, none⟩ false =
      .ok [] [] [⟨some "m1", some "Dentist", some ⟨some 630⟩, some ⟨some 700⟩⟩] := by
  exact ⟨by decide, by decide⟩

/-- C10 amended: a dry run issues no update call and leaves the event list
untouched, and it computes the same candidate slots as the applying run on the
same input (conflicts carrying schedule-block titles, as `detect_conflicts`
guarantees); the applying run's returned record list is a sublist of the dry
run's — a record is dropped exactly when no matching calendar entry is found
(or the update fails), while the dry run reports the complete computed list. -/
theorem handle_conflicts_dry_frame_and_sublist
    (fuel : Nat) (conflicts : List Conflict) (all_events : List GEvent)
    (schedule_events : List SchedTuple) (config : Config)
    (recs_d : List Reloc) (writes_d : List Write) (events_d : List GEvent)
    (hsched : ∀ c ∈ conflicts, c.scheduled_event.title ∈ schedule_events.map SchedTuple.title)
    (hd : handle_conflicts fuel conflicts all_events schedule_events config true =
      .ok recs_d writes_d events_d) :
    writes_d = [] ∧ events_d = all_events ∧
    ∀ (recs_a : List Reloc) (writes_a : List Write) (events_a : List GEvent),
      handle_conflicts fuel conflicts all_events schedule_events config false =
        .ok recs_a writes_a events_a →
      List.Sublist recs_a recs_d := by
  unfold handle_conflicts at hd
  split at hd
  · rename_i hempty
    injection hd with h1 h2 h3
    subst h1
    subst h2
    subst h3
    refine ⟨rfl, rfl, ?_⟩
    intro recs_a writes_a events_a ha
    unfold handle_conflicts at ha
    rw [if_pos hempty] at ha
    injection ha with ha1 ha2 ha3
    rw [← ha1]
  · rename_i hempty
    obtain ⟨hw, he⟩ := hcLoop_dry_frame hd
    refine ⟨hw, he, ?_⟩
    intro recs_a writes_a events_a ha
    unfold handle_conflicts at ha
    rw [if_neg hempty] at ha
    obtain ⟨Rd, hd', hsubRa⟩ := hcLoop_apply_to_dry
      (List.forall₂_same.mpr fun e _ => Or.inl rfl) (sortGroups_titles_mem hsched)
      (List.Sublist.refl ([] : List Reloc)) ha
    rw [hd] at hd'
    injection hd' with hr hw' he'
    rw [hr]
    exact hsubRa

/-- Witness for the amended C10: on an input where the scheduled "Deep Work"
entry does exist on the calendar, the applying run emits the same single
record that the dry run reports, a sublist of the dry run's list. -/
theorem handle_conflicts_dry_frame_and_sublist_witness :
    List.Sublist [(⟨"Deep Work", 600, 730, 850⟩ : Reloc)]
      [(⟨"Deep Work", 600, 730, 850⟩ : Reloc)] :=
  (handle_conflicts_dry_frame_and_sublist 10
    [⟨⟨some "m1", some "Dentist", some ⟨some 630⟩, some ⟨some 700⟩⟩,
      ⟨"Deep Work", 600, 720⟩, 630, 700⟩]
    [⟨some "m1", some "Dentist", some ⟨some 630⟩, some ⟨some 700⟩⟩,
     ⟨some "e1", some "Deep Work", some ⟨some 600⟩, some ⟨some 720⟩⟩]
    [⟨"Deep Work", 2025, 7, 7, 10, 0, 12, 0⟩] ⟨30, 1439, none⟩
    [⟨"Deep Work", 600, 730, 850⟩] []
    [⟨some "m1", some "Dentist", some ⟨some 630⟩, some ⟨some 700⟩⟩,
     ⟨some "e1", some "Deep Work", some ⟨some 600⟩, some ⟨some 720⟩⟩]
    (by decide) rfl).2.2
    [⟨"Deep Work", 600, 730, 850⟩] [⟨"e1", 730, 850⟩]
    [⟨some "m1", some "Dentist", some ⟨some 630⟩, some ⟨some 700⟩⟩,
     ⟨some "e1", some "Deep Work", some ⟨some 730⟩, some ⟨some 850⟩⟩] rfl

/-- Witness for the amended C4 bump rule: candidate 730–850 clashes with the
already-accepted slot 800–860, and one loop iteration bumps the candidate
start to that slot's end (the maximum among overlapping accepted ends) plus
buffer. -/
theorem calc_bump_rule_witness :
    ∃ bump,
      bump ∈ (([((800 : Int), (860 : Int))]).filter fun b =>
        events_overlap 730 850 b.1 b.2 0).map Prod.snd ∧
      (∀ x ∈ (([((800 : Int), (860 : Int))]).filter fun b =>
        events_overlap 730 850 b.1 b.2 0).map Prod.snd, x ≤ bump) ∧
      calcLoop [] ["Deep Work"] [(800, 860)] 30 120 1439 10 730 =
        calcLoop [] ["Deep Work"] [(800, 860)] 30 120 1439 9 (bump + 30) :=
  (calc_bump_rule [] ["Deep Work"] [(800, 860)] 30 120 1439 9 730 (by decide)).1
    ⟨(800, 860), List.mem_cons_self _ _, by decide⟩
